import Mathlib

/-!
A verification development for the volumetric ray-density estimation engine
of `raylib/rayrenderer.cpp` (ray traversal `DensityGrid::calculateDensities`,
the neighbour-borrowing smoothing pass `DensityGrid::addNeighbourPriors`, and
the density projection loop of `renderCloud`).

Real (`double`/`float`) arithmetic of the C++ source is embedded as exact
rational arithmetic over `ℚ`.  The two places where IEEE-754 semantics is not
plain field arithmetic are modelled explicitly and documented at the
definition site:

* in the axis-selection loop of the traversal, a zero direction component
  makes the C++ expression `frac * length / abs(dir[k])` evaluate to `+inf`
  or `NaN`, and in either case the comparison `l < minL` is false; the model
  therefore guards the candidate update with `dir[k] ≠ 0`;
* `ℚ` division by zero yields `0`; the spots where the source can divide by
  zero are noted where they matter.

Norms (`dir.norm()`) are irrational in general, so the traversal takes the
ray length as an explicit argument `len`; theorems that need facts about the
true length (`0 ≤ len`, `len = 0` for a degenerate ray) take them as
hypotheses, and concrete scenarios use axis-aligned rays whose length is
rational.
-/

namespace RayDensity

/-- A 3-vector of rationals, standing for `Eigen::Vector3d`. -/
structure V3 where
  x : ℚ
  y : ℚ
  z : ℚ
deriving DecidableEq

/-- Component access by axis number, mirroring `v[k]` on an `Eigen::Vector3d`. -/
def V3.get (v : V3) : Fin 3 → ℚ
  | 0 => v.x
  | 1 => v.y
  | 2 => v.z

/-- A 3-vector of integers, standing for `Eigen::Vector3i`. -/
structure I3 where
  x : ℤ
  y : ℤ
  z : ℤ
deriving DecidableEq

/-- Component access by axis number, mirroring `v[k]` on an `Eigen::Vector3i`. -/
def I3.get (v : I3) : Fin 3 → ℤ
  | 0 => v.x
  | 1 => v.y
  | 2 => v.z

/-- Update one component by axis number (`inds[axis] += step` in the source). -/
def I3.set (v : I3) : Fin 3 → ℤ → I3
  | 0, a => ⟨a, v.y, v.z⟩
  | 1, a => ⟨v.x, a, v.z⟩
  | 2, a => ⟨v.x, v.y, a⟩

/-- Truncation toward zero, mirroring the C++ `static_cast<int>` /
`p.cast<int>()` conversion from `double` to `int`. -/
def truncQ (q : ℚ) : ℤ := if 0 ≤ q then ⌊q⌋ else ⌈q⌉

/-- Modelled from the spec: the per-voxel accumulator `DensityGrid::Voxel`
is declared in `rayrenderer.h`, which is not under `src/`; §3 of the spec
gives its four non-negative fields and is declared there to be the
authoritative contract. -/
structure Voxel where
  hitCount : ℚ
  hitDepthSum : ℚ
  missCount : ℚ
  missDepthSum : ℚ
deriving DecidableEq

/-- The all-zero accumulator a freshly constructed grid cell holds. -/
def Voxel.zero : Voxel := ⟨0, 0, 0, 0⟩

/-- Modelled from the spec: merge (`operator+=`) adds all four fields. -/
def Voxel.merge (v u : Voxel) : Voxel :=
  ⟨v.hitCount + u.hitCount, v.hitDepthSum + u.hitDepthSum,
   v.missCount + u.missCount, v.missDepthSum + u.missDepthSum⟩

/-- Modelled from the spec: scaling (`operator*`) multiplies all four fields
uniformly. -/
def Voxel.scale (v : Voxel) (s : ℚ) : Voxel :=
  ⟨v.hitCount * s, v.hitDepthSum * s, v.missCount * s, v.missDepthSum * s⟩

/-- `numRays() = hitCount + missCount` (spec §3). -/
def Voxel.numRays (v : Voxel) : ℚ := v.hitCount + v.missCount

/-- `numHits() = hitCount` (spec §3). -/
def Voxel.numHits (v : Voxel) : ℚ := v.hitCount

/-- `density() = hitCount / (hitDepthSum + missDepthSum)` when the
denominator is positive, else `0` (spec §3). -/
def Voxel.density (v : Voxel) : ℚ :=
  if 0 < v.hitDepthSum + v.missDepthSum then v.hitCount / (v.hitDepthSum + v.missDepthSum) else 0

/-- Modelled from the spec: `addHitRay(d)` records one hit sample of depth `d`. -/
def Voxel.addHitRay (v : Voxel) (d : ℚ) : Voxel :=
  ⟨v.hitCount + 1, v.hitDepthSum + d, v.missCount, v.missDepthSum⟩

/-- Modelled from the spec: `addMissRay(d)` records one miss sample of depth `d`. -/
def Voxel.addMissRay (v : Voxel) (d : ℚ) : Voxel :=
  ⟨v.hitCount, v.hitDepthSum, v.missCount + 1, v.missDepthSum + d⟩

/-- All four accumulator fields are non-negative (the invariant of spec §3). -/
def Voxel.Nonneg (v : Voxel) : Prop :=
  0 ≤ v.hitCount ∧ 0 ≤ v.hitDepthSum ∧ 0 ≤ v.missCount ∧ 0 ≤ v.missDepthSum

/-- Modelled from the spec: `DensityGrid::getIndex` is declared in
`rayrenderer.h`, not under `src/`; spec §3 fixes the flat slot of cell
`(x,y,z)` in the row-major voxel array as `x + nx*(y + ny*z)` (consistent
with the `X = 1`, `Y = dims[0]`, `Z = dims[0]*dims[1]` strides of
rayrenderer.cpp:74-76). -/
def getIndex (nx ny x y z : ℤ) : ℤ := x + nx * (y + ny * z)

/-! ## Ray traversal: `DensityGrid::calculateDensities`, rayrenderer.cpp:20-69 -/

/-- The `1e-9` nudge added to `depth` each iteration (rayrenderer.cpp:50). -/
def eps : ℚ := 1 / 10 ^ 9

/-- The `1e10` sentinel initialising `minL` (rayrenderer.cpp:40). -/
def bigL : ℚ := 10 ^ 10

/-- One attribution made by the traversal: which cell index was written
(`inds` after the increment), whether `addHitRay` or `addMissRay` was called,
and the depth argument passed to it (already multiplied by `voxel_width_`). -/
inductive EvKind
  | hit
  | miss
deriving DecidableEq

/-- A single voxel write performed by the traversal loop. -/
structure Ev where
  kind : EvKind
  inds : I3
  d : ℚ
deriving DecidableEq

/-- The axis-selection loop (rayrenderer.cpp:39-49): for each axis `k` the
source computes `l = (dir[k] > 0 ? ceil(p[k]) - p[k] : p[k] - floor(p[k])) *
length / abs(dir[k])` and keeps the smallest `l` with its axis.  When
`dir[k] = 0` the C++ division yields `+inf` (or `NaN` for a zero numerator)
and the comparison `l < minL` is false either way, so the model skips the
update for a zero component. -/
def pickStep (dirv p : V3) (len : ℚ) : ℚ × Fin 3 :=
  (List.finRange 3).foldl
    (fun acc k =>
      if dirv.get k ≠ 0 then
        let l := (if 0 < dirv.get k then (⌈p.get k⌉ : ℚ) - p.get k
                  else p.get k - (⌊p.get k⌋ : ℚ)) * len / |dirv.get k|
        if l < acc.1 then (l, k) else acc
      else acc)
    (bigL, 0)

/-- The do-while voxel walk (rayrenderer.cpp:37-65), with explicit fuel;
`none` means the fuel ran out before the loop exited.  Each iteration picks
the minimal step `minL`, advances `depth`, increments one component of
`inds`, breaks if that component left `[0, dims[axis])`, recomputes `p`, and
records a hit write (when `alpha > 0 && depth > maxDist`) or a miss write. -/
def travLoop (w len maxD : ℚ) (dirv src : V3) (dims : I3) (isHit : Bool) :
    ℕ → V3 → I3 → ℚ → List Ev → Option (List Ev)
  | 0, _, _, _, _ => none
  | fuel + 1, p, inds, depth, evs =>
    let st := pickStep dirv p len
    let minL := st.1
    let axis := st.2
    let depth' := depth + minL + eps
    let inds' := inds.set axis (inds.get axis + if 0 < dirv.get axis then 1 else -1)
    if inds'.get axis < 0 ∨ dims.get axis ≤ inds'.get axis then some evs
    else
      let p' : V3 := ⟨src.x + depth' * dirv.x / len,
                      src.y + depth' * dirv.y / len,
                      src.z + depth' * dirv.z / len⟩
      let ev : Ev :=
        if isHit ∧ maxD < depth' then ⟨EvKind.hit, inds', (minL + maxD - depth') * w⟩
        else ⟨EvKind.miss, inds', minL * w⟩
      if depth' ≤ maxD then travLoop w len maxD dirv src dims isHit fuel p' inds' depth' (evs ++ [ev])
      else some (evs ++ [ev])

/-- Traversal of one (already clipped) ray (rayrenderer.cpp:29-65).  `len`
stands for `dir.norm()`, passed explicitly because norms are irrational in
general; `maxDist = (target - source).norm()` equals `len / w` exactly since
`target - source = dir / w` with `w > 0`.  `isHit` models
`colours[i].alpha > 0` (bounded rays carry positive alpha). -/
def traverse (fuel : ℕ) (bmin : V3) (w : ℚ) (dims : I3) (s e : V3) (len : ℚ)
    (isHit : Bool) : Option (List Ev) :=
  let dirv : V3 := ⟨e.x - s.x, e.y - s.y, e.z - s.z⟩
  let src : V3 := ⟨(s.x - bmin.x) / w, (s.y - bmin.y) / w, (s.z - bmin.z) / w⟩
  let maxD : ℚ := len / w
  let inds0 : I3 := ⟨truncQ src.x, truncQ src.y, truncQ src.z⟩
  travLoop w len maxD dirv src dims isHit fuel src inds0 0 []

/-- Modelled from the spec: `Cuboid::clipRay` is declared outside `src/`;
spec §4.2 step 1 and §7 (OutOfBoundsRay) say the ray is clipped to the
grid's world-space bounds and never rejected.  Standard parametric
(Liang-Barsky) clipping of the segment to the box; a segment that misses the
box entirely is collapsed to its start point. -/
def clipRay (bmin bmax s e : V3) : V3 × V3 :=
  let dirv : V3 := ⟨e.x - s.x, e.y - s.y, e.z - s.z⟩
  let r := (List.finRange 3).foldl
    (fun (acc : ℚ × ℚ × Bool) k =>
      if 0 < dirv.get k then
        (max acc.1 ((bmin.get k - s.get k) / dirv.get k),
         min acc.2.1 ((bmax.get k - s.get k) / dirv.get k), acc.2.2)
      else if dirv.get k < 0 then
        (max acc.1 ((bmax.get k - s.get k) / dirv.get k),
         min acc.2.1 ((bmin.get k - s.get k) / dirv.get k), acc.2.2)
      else if bmin.get k ≤ s.get k ∧ s.get k ≤ bmax.get k then acc
      else (acc.1, acc.2.1, false))
    (0, 1, true)
  if r.2.2 = true ∧ r.1 ≤ r.2.1 then
    (⟨s.x + r.1 * dirv.x, s.y + r.1 * dirv.y, s.z + r.1 * dirv.z⟩,
     ⟨s.x + r.2.1 * dirv.x, s.y + r.2.1 * dirv.y, s.z + r.2.1 * dirv.z⟩)
  else (s, s)

/-- Per-ray body of `calculateDensities` (rayrenderer.cpp:22-66): clip the
ray to the grid bounds, then walk the voxels.  `len` is the length of the
clipped ray. -/
def calcDensRay (fuel : ℕ) (bmin bmax : V3) (w : ℚ) (dims : I3) (s e : V3)
    (len : ℚ) (isHit : Bool) : Option (List Ev) :=
  let se := clipRay bmin bmax s e
  traverse fuel bmin w dims se.1 se.2 len isHit

/-- Apply one recorded write to the flat voxel array (rayrenderer.cpp:55-64):
`voxels_[getIndex(inds)].addHitRay(...)` or `...addMissRay(...)`. -/
def applyEv (nx ny : ℤ) (g : ℤ → Voxel) (ev : Ev) : ℤ → Voxel :=
  let j := getIndex nx ny ev.inds.x ev.inds.y ev.inds.z
  Function.update g j
    (match ev.kind with
     | EvKind.hit => (g j).addHitRay ev.d
     | EvKind.miss => (g j).addMissRay ev.d)

/-- Apply a list of recorded writes in order. -/
def applyEvs (nx ny : ℤ) (g : ℤ → Voxel) (evs : List Ev) : ℤ → Voxel :=
  evs.foldl (applyEv nx ny) g

/-- One input ray of the cloud: start, end, true segment length and the
hit flag (`colours[i].alpha > 0`). -/
structure RayIn where
  s : V3
  e : V3
  len : ℚ
  isHit : Bool

/-- Processing a whole batch of rays, as the `calculate` lambda does for each
chunk handed over by `readPly` (rayrenderer.cpp:20-68). -/
def processCloud (fuel : ℕ) (bmin bmax : V3) (w : ℚ) (dims : I3) (nx ny : ℤ)
    (g : ℤ → Voxel) (rays : List RayIn) : ℤ → Voxel :=
  rays.foldl
    (fun h r =>
      applyEvs nx ny h ((calcDensRay fuel bmin bmax w dims r.s r.e r.len r.isHit).getD []))
    g

/-! ## Smoothing pass: `DensityGrid::addNeighbourPriors`, rayrenderer.cpp:72-166

The voxel array is modelled as a total map `ℤ → Voxel` indexed by the flat
slot number; all reads and writes go through the same flat-index arithmetic
(`ind ± X ± Y ± Z`) as the source.  The diagnostic hit-point counters and the
printed percentage (rayrenderer.cpp:78-79, 90-91, 148-149, 153-165) have no
effect on the voxel data and are not modelled. -/

/-- The `DENSITY_MIN_RAYS` compile-time constant (rayrenderer.cpp:12). -/
def DENSITY_MIN_RAYS : ℚ := 10

/-- The body of the triple loop of `addNeighbourPriors` for one interior cell
`(x,y,z)` (rayrenderer.cpp:89-149), as a transformation of the flat voxel
map.  It first copies the centre value onto the backward-shifted corner slot
`ind - X - Y - Z` (saving that slot's previous value in `corner_vox`), then,
if the centre still needs rays, merges in the face shell, the edge shell and
the corner shell in order, reading the shells from the current (partially
overwritten) array exactly as the source does, and accumulating into the
corner slot through the reference `voxel`. -/
def smoothCellStep (nx ny : ℤ) (g : ℤ → Voxel) (x y z : ℤ) : ℤ → Voxel :=
  let X : ℤ := 1
  let Y : ℤ := nx
  let Z : ℤ := nx * ny
  let ind := getIndex nx ny x y z
  let corner := ind - X - Y - Z
  let corner_vox := g corner
  let needed : ℚ := DENSITY_MIN_RAYS - (g ind).numRays
  let g1 := Function.update g corner (g ind)
  if needed < 0 then g1
  else
    let n1 := (((((g1 (ind - X)).merge (g1 (ind + X))).merge
      (g1 (ind - Y))).merge (g1 (ind + Y))).merge
      (g1 (ind - Z))).merge (g1 (ind + Z))
    if needed ≤ n1.numRays then
      Function.update g1 corner ((g1 corner).merge (n1.scale (needed / n1.numRays)))
    else
      let g2 := Function.update g1 corner ((g1 corner).merge n1)
      let needed2 := needed - n1.numRays
      let n2 := (((((((((((g2 (ind - X - Y)).merge (g2 (ind - X + Y))).merge
        (g2 (ind + X - Y))).merge (g2 (ind + X + Y))).merge
        (g2 (ind - X - Z))).merge (g2 (ind - X + Z))).merge
        (g2 (ind + X - Z))).merge (g2 (ind + X + Z))).merge
        (g2 (ind - Y - Z))).merge (g2 (ind - Y + Z))).merge
        (g2 (ind + Y - Z))).merge (g2 (ind + Y + Z))
      if needed2 ≤ n2.numRays then
        Function.update g2 corner ((g2 corner).merge (n2.scale (needed2 / n2.numRays)))
      else
        let g3 := Function.update g2 corner ((g2 corner).merge n2)
        let needed3 := needed2 - n2.numRays
        let n3 := ((((((corner_vox.merge (g3 (ind - X - Y + Z))).merge
          (g3 (ind - X + Y - Z))).merge (g3 (ind + X - Y - Z))).merge
          (g3 (ind - X + Y + Z))).merge (g3 (ind + X - Y + Z))).merge
          (g3 (ind + X + Y - Z))).merge (g3 (ind + X + Y + Z))
        if needed3 ≤ n3.numRays then
          Function.update g3 corner ((g3 corner).merge (n3.scale (needed3 / n3.numRays)))
        else
          Function.update g3 corner ((g3 corner).merge n3)

/-- The full smoothing pass (rayrenderer.cpp:83-152): the triple nested loop
over interior cells, `x` outermost and `z` innermost, each running from `1`
to `voxel_dims_[k] - 2` inclusive. -/
def addNeighbourPriors (nx ny nz : ℕ) (g : ℤ → Voxel) : ℤ → Voxel :=
  (List.range' 1 (nx - 2)).foldl
    (fun gx (x : ℕ) =>
      (List.range' 1 (ny - 2)).foldl
        (fun gy (y : ℕ) =>
          (List.range' 1 (nz - 2)).foldl
            (fun gz (z : ℕ) => smoothCellStep (nx : ℤ) (ny : ℤ) gz (x : ℤ) (y : ℤ) (z : ℤ))
            gy)
        gx)
    g

/-- The same computation as `smoothCellStep`, but with every shell read taken
from the grid `g` as it was before the pass touched anything: the ideal
per-cell smoothing output that the pass is claimed to realise for every
interior cell despite its in-place buffer reuse. -/
def smoothCellSpec (nx ny : ℤ) (g : ℤ → Voxel) (x y z : ℤ) : Voxel :=
  let X : ℤ := 1
  let Y : ℤ := nx
  let Z : ℤ := nx * ny
  let ind := getIndex nx ny x y z
  let needed : ℚ := DENSITY_MIN_RAYS - (g ind).numRays
  if needed < 0 then g ind
  else
    let n1 := (((((g (ind - X)).merge (g (ind + X))).merge
      (g (ind - Y))).merge (g (ind + Y))).merge
      (g (ind - Z))).merge (g (ind + Z))
    if needed ≤ n1.numRays then (g ind).merge (n1.scale (needed / n1.numRays))
    else
      let needed2 := needed - n1.numRays
      let n2 := (((((((((((g (ind - X - Y)).merge (g (ind - X + Y))).merge
        (g (ind + X - Y))).merge (g (ind + X + Y))).merge
        (g (ind - X - Z))).merge (g (ind - X + Z))).merge
        (g (ind + X - Z))).merge (g (ind + X + Z))).merge
        (g (ind - Y - Z))).merge (g (ind - Y + Z))).merge
        (g (ind + Y - Z))).merge (g (ind + Y + Z))
      if needed2 ≤ n2.numRays then
        ((g ind).merge n1).merge (n2.scale (needed2 / n2.numRays))
      else
        let needed3 := needed2 - n2.numRays
        let n3 := (((((((g (ind - X - Y - Z)).merge (g (ind - X - Y + Z))).merge
          (g (ind - X + Y - Z))).merge (g (ind + X - Y - Z))).merge
          (g (ind - X + Y + Z))).merge (g (ind + X - Y + Z))).merge
          (g (ind + X + Y - Z))).merge (g (ind + X + Y + Z))
        if needed3 ≤ n3.numRays then
          (((g ind).merge n1).merge n2).merge (n3.scale (needed3 / n3.numRays))
        else (((g ind).merge n1).merge n2).merge n3

/-- Total pre-smoothing `numRays()` over the full 26-voxel Moore
neighbourhood of cell `(x,y,z)`. -/
def neighbourhoodRays (nx ny : ℤ) (g : ℤ → Voxel) (x y z : ℤ) : ℚ :=
  let X : ℤ := 1
  let Y : ℤ := nx
  let Z : ℤ := nx * ny
  let ind := getIndex nx ny x y z
  (g (ind - X)).numRays + (g (ind + X)).numRays +
  (g (ind - Y)).numRays + (g (ind + Y)).numRays +
  (g (ind - Z)).numRays + (g (ind + Z)).numRays +
  (g (ind - X - Y)).numRays + (g (ind - X + Y)).numRays +
  (g (ind + X - Y)).numRays + (g (ind + X + Y)).numRays +
  (g (ind - X - Z)).numRays + (g (ind - X + Z)).numRays +
  (g (ind + X - Z)).numRays + (g (ind + X + Z)).numRays +
  (g (ind - Y - Z)).numRays + (g (ind - Y + Z)).numRays +
  (g (ind + Y - Z)).numRays + (g (ind + Y + Z)).numRays +
  (g (ind - X - Y - Z)).numRays + (g (ind - X - Y + Z)).numRays +
  (g (ind - X + Y - Z)).numRays + (g (ind + X - Y - Z)).numRays +
  (g (ind - X + Y + Z)).numRays + (g (ind + X - Y + Z)).numRays +
  (g (ind + X + Y - Z)).numRays + (g (ind + X + Y + Z)).numRays

/-- Grid `h` agrees with grid `g` on every slot of the 3x3x3 block of cells
around `(x,y,z)` (the slots the loop body for that cell reads). -/
def NearAgrees (nx ny : ℤ) (g h : ℤ → Voxel) (x y z : ℤ) : Prop :=
  ∀ a b c : ℤ, x - 1 ≤ a → a ≤ x + 1 → y - 1 ≤ b → b ≤ y + 1 → z - 1 ≤ c → c ≤ z + 1 →
    h (getIndex nx ny a b c) = g (getIndex nx ny a b c)

/-- The loop body for cell `(x,y,z)` run on a grid `h` that still holds the
pre-pass values `g` on the 27 slots it reads is exactly one write: the
backward-shifted corner slot receives the ideal pre-pass smoothing value
`smoothCellSpec g x y z`, and every other slot keeps its value. -/
theorem smoothCellStep_spec (nx ny : ℤ) (hx : 0 < nx) (hy : 0 < ny)
    (g h : ℤ → Voxel) (x y z : ℤ) (hag : NearAgrees nx ny g h x y z) :
    smoothCellStep nx ny h x y z =
      Function.update h (getIndex nx ny (x - 1) (y - 1) (z - 1))
        (smoothCellSpec nx ny g x y z) := by
  have hK : 0 < nx * ny := mul_pos hx hy
  simp only [smoothCellStep, smoothCellSpec]
  set i0 := getIndex nx ny x y z with hi0
  have hkey : getIndex nx ny (x - 1) (y - 1) (z - 1) = i0 - 1 - nx - nx * ny := by
    rw [hi0]; unfold getIndex; ring
  have hrd : ∀ dx dy dz q : ℤ, q = i0 + dx + nx * dy + nx * ny * dz →
      -1 ≤ dx → dx ≤ 1 → -1 ≤ dy → dy ≤ 1 → -1 ≤ dz → dz ≤ 1 → h q = g q := by
    intro dx dy dz q hq h1 h2 h3 h4 h5 h6
    have e : q = getIndex nx ny (x + dx) (y + dy) (z + dz) := by
      rw [hq, hi0]; unfold getIndex; ring
    rw [e]
    exact hag _ _ _ (by omega) (by omega) (by omega) (by omega) (by omega) (by omega)
  have hr0 : h i0 = g i0 := hrd 0 0 0 _ (by ring) (by omega) (by omega) (by omega) (by omega) (by omega) (by omega)
  have hra : h (i0 - 1) = g (i0 - 1) := hrd (-1) 0 0 _ (by ring) (by omega) (by omega) (by omega) (by omega) (by omega) (by omega)
  have hrb : h (i0 + 1) = g (i0 + 1) := hrd 1 0 0 _ (by ring) (by omega) (by omega) (by omega) (by omega) (by omega) (by omega)
  have hrc : h (i0 - nx) = g (i0 - nx) := hrd 0 (-1) 0 _ (by ring) (by omega) (by omega) (by omega) (by omega) (by omega) (by omega)
  have hrd' : h (i0 + nx) = g (i0 + nx) := hrd 0 1 0 _ (by ring) (by omega) (by omega) (by omega) (by omega) (by omega) (by omega)
  have hre : h (i0 - nx * ny) = g (i0 - nx * ny) := hrd 0 0 (-1) _ (by ring) (by omega) (by omega) (by omega) (by omega) (by omega) (by omega)
  have hrf : h (i0 + nx * ny) = g (i0 + nx * ny) := hrd 0 0 1 _ (by ring) (by omega) (by omega) (by omega) (by omega) (by omega) (by omega)
  have hrg : h (i0 - 1 - nx) = g (i0 - 1 - nx) := hrd (-1) (-1) 0 _ (by ring) (by omega) (by omega) (by omega) (by omega) (by omega) (by omega)
  have hrh : h (i0 - 1 + nx) = g (i0 - 1 + nx) := hrd (-1) 1 0 _ (by ring) (by omega) (by omega) (by omega) (by omega) (by omega) (by omega)
  have hri : h (i0 + 1 - nx) = g (i0 + 1 - nx) := hrd 1 (-1) 0 _ (by ring) (by omega) (by omega) (by omega) (by omega) (by omega) (by omega)
  have hrj : h (i0 + 1 + nx) = g (i0 + 1 + nx) := hrd 1 1 0 _ (by ring) (by omega) (by omega) (by omega) (by omega) (by omega) (by omega)
  have hrk : h (i0 - 1 - nx * ny) = g (i0 - 1 - nx * ny) := hrd (-1) 0 (-1) _ (by ring) (by omega) (by omega) (by omega) (by omega) (by omega) (by omega)
  have hrl : h (i0 - 1 + nx * ny) = g (i0 - 1 + nx * ny) := hrd (-1) 0 1 _ (by ring) (by omega) (by omega) (by omega) (by omega) (by omega) (by omega)
  have hrm : h (i0 + 1 - nx * ny) = g (i0 + 1 - nx * ny) := hrd 1 0 (-1) _ (by ring) (by omega) (by omega) (by omega) (by omega) (by omega) (by omega)
  have hrn : h (i0 + 1 + nx * ny) = g (i0 + 1 + nx * ny) := hrd 1 0 1 _ (by ring) (by omega) (by omega) (by omega) (by omega) (by omega) (by omega)
  have hro : h (i0 - nx - nx * ny) = g (i0 - nx - nx * ny) := hrd 0 (-1) (-1) _ (by ring) (by omega) (by omega) (by omega) (by omega) (by omega) (by omega)
  have hrp : h (i0 - nx + nx * ny) = g (i0 - nx + nx * ny) := hrd 0 (-1) 1 _ (by ring) (by omega) (by omega) (by omega) (by omega) (by omega) (by omega)
  have hrq : h (i0 + nx - nx * ny) = g (i0 + nx - nx * ny) := hrd 0 1 (-1) _ (by ring) (by omega) (by omega) (by omega) (by omega) (by omega) (by omega)
  have hrr : h (i0 + nx + nx * ny) = g (i0 + nx + nx * ny) := hrd 0 1 1 _ (by ring) (by omega) (by omega) (by omega) (by omega) (by omega) (by omega)
  have hrs : h (i0 - 1 - nx - nx * ny) = g (i0 - 1 - nx - nx * ny) := hrd (-1) (-1) (-1) _ (by ring) (by omega) (by omega) (by omega) (by omega) (by omega) (by omega)
  have hrt : h (i0 - 1 - nx + nx * ny) = g (i0 - 1 - nx + nx * ny) := hrd (-1) (-1) 1 _ (by ring) (by omega) (by omega) (by omega) (by omega) (by omega) (by omega)
  have hru : h (i0 - 1 + nx - nx * ny) = g (i0 - 1 + nx - nx * ny) := hrd (-1) 1 (-1) _ (by ring) (by omega) (by omega) (by omega) (by omega) (by omega) (by omega)
  have hrv : h (i0 + 1 - nx - nx * ny) = g (i0 + 1 - nx - nx * ny) := hrd 1 (-1) (-1) _ (by ring) (by omega) (by omega) (by omega) (by omega) (by omega) (by omega)
  have hrw : h (i0 - 1 + nx + nx * ny) = g (i0 - 1 + nx + nx * ny) := hrd (-1) 1 1 _ (by ring) (by omega) (by omega) (by omega) (by omega) (by omega) (by omega)
  have hrx2 : h (i0 + 1 - nx + nx * ny) = g (i0 + 1 - nx + nx * ny) := hrd 1 (-1) 1 _ (by ring) (by omega) (by omega) (by omega) (by omega) (by omega) (by omega)
  have hry2 : h (i0 + 1 + nx - nx * ny) = g (i0 + 1 + nx - nx * ny) := hrd 1 1 (-1) _ (by ring) (by omega) (by omega) (by omega) (by omega) (by omega) (by omega)
  have hrz2 : h (i0 + 1 + nx + nx * ny) = g (i0 + 1 + nx + nx * ny) := hrd 1 1 1 _ (by ring) (by omega) (by omega) (by omega) (by omega) (by omega) (by omega)
  have hupd : ∀ q : ℤ, q ≠ i0 - 1 - nx - nx * ny → ∀ (f : ℤ → Voxel) (v : Voxel),
      Function.update f (i0 - 1 - nx - nx * ny) v q = f q :=
    fun q hq f v => Function.update_noteq hq v f
  have hna : (i0 - 1 : ℤ) ≠ i0 - 1 - nx - nx * ny := by intro hq; linarith
  have hnb : (i0 + 1 : ℤ) ≠ i0 - 1 - nx - nx * ny := by intro hq; linarith
  have hnc : (i0 - nx : ℤ) ≠ i0 - 1 - nx - nx * ny := by intro hq; linarith
  have hnd : (i0 + nx : ℤ) ≠ i0 - 1 - nx - nx * ny := by intro hq; linarith
  have hne' : (i0 - nx * ny : ℤ) ≠ i0 - 1 - nx - nx * ny := by intro hq; linarith
  have hnf : (i0 + nx * ny : ℤ) ≠ i0 - 1 - nx - nx * ny := by intro hq; linarith
  have hng : (i0 - 1 - nx : ℤ) ≠ i0 - 1 - nx - nx * ny := by intro hq; linarith
  have hnh : (i0 - 1 + nx : ℤ) ≠ i0 - 1 - nx - nx * ny := by intro hq; linarith
  have hni : (i0 + 1 - nx : ℤ) ≠ i0 - 1 - nx - nx * ny := by intro hq; linarith
  have hnj : (i0 + 1 + nx : ℤ) ≠ i0 - 1 - nx - nx * ny := by intro hq; linarith
  have hnk : (i0 - 1 - nx * ny : ℤ) ≠ i0 - 1 - nx - nx * ny := by intro hq; linarith
  have hnl : (i0 - 1 + nx * ny : ℤ) ≠ i0 - 1 - nx - nx * ny := by intro hq; linarith
  have hnm : (i0 + 1 - nx * ny : ℤ) ≠ i0 - 1 - nx - nx * ny := by intro hq; linarith
  have hnn : (i0 + 1 + nx * ny : ℤ) ≠ i0 - 1 - nx - nx * ny := by intro hq; linarith
  have hno : (i0 - nx - nx * ny : ℤ) ≠ i0 - 1 - nx - nx * ny := by intro hq; linarith
  have hnp : (i0 - nx + nx * ny : ℤ) ≠ i0 - 1 - nx - nx * ny := by intro hq; linarith
  have hnq : (i0 + nx - nx * ny : ℤ) ≠ i0 - 1 - nx - nx * ny := by intro hq; linarith
  have hnr : (i0 + nx + nx * ny : ℤ) ≠ i0 - 1 - nx - nx * ny := by intro hq; linarith
  have hnt : (i0 - 1 - nx + nx * ny : ℤ) ≠ i0 - 1 - nx - nx * ny := by intro hq; linarith
  have hnu : (i0 - 1 + nx - nx * ny : ℤ) ≠ i0 - 1 - nx - nx * ny := by intro hq; linarith
  have hnv : (i0 + 1 - nx - nx * ny : ℤ) ≠ i0 - 1 - nx - nx * ny := by intro hq; linarith
  have hnw : (i0 - 1 + nx + nx * ny : ℤ) ≠ i0 - 1 - nx - nx * ny := by intro hq; linarith
  have hnx2 : (i0 + 1 - nx + nx * ny : ℤ) ≠ i0 - 1 - nx - nx * ny := by intro hq; linarith
  have hny2 : (i0 + 1 + nx - nx * ny : ℤ) ≠ i0 - 1 - nx - nx * ny := by intro hq; linarith
  have hnz2 : (i0 + 1 + nx + nx * ny : ℤ) ≠ i0 - 1 - nx - nx * ny := by intro hq; linarith
  simp only [hkey, hupd _ hna, hupd _ hnb, hupd _ hnc, hupd _ hnd, hupd _ hne',
    hupd _ hnf, hupd _ hng, hupd _ hnh, hupd _ hni, hupd _ hnj, hupd _ hnk,
    hupd _ hnl, hupd _ hnm, hupd _ hnn, hupd _ hno, hupd _ hnp, hupd _ hnq,
    hupd _ hnr, hupd _ hnt, hupd _ hnu, hupd _ hnv, hupd _ hnw, hupd _ hnx2,
    hupd _ hny2, hupd _ hnz2, Function.update_same, Function.update_idem,
    hr0, hra, hrb, hrc, hrd', hre, hrf, hrg, hrh, hri, hrj, hrk, hrl, hrm, hrn,
    hro, hrp, hrq, hrr, hrs, hrt, hru, hrv, hrw, hrx2, hry2, hrz2,
    apply_ite (Function.update h (i0 - 1 - nx - nx * ny))]

/-- Mixed-radix uniqueness: with `a, a'` in `[0, n)`, the value `a + n * b`
determines `a` and `b`. -/
theorem decompose_unique {n a a' b b' : ℤ} (h0 : 0 ≤ a) (h1 : a < n) (h2 : 0 ≤ a')
    (h3 : a' < n) (h : a + n * b = a' + n * b') : a = a' ∧ b = b' := by
  have hb : b = b' := by
    by_contra hne
    rcases lt_or_gt_of_ne hne with hlt | hgt
    · have hstep : n * (b + 1) ≤ n * b' :=
        mul_le_mul_of_nonneg_left (by omega) (by omega)
      nlinarith
    · have hstep : n * (b' + 1) ≤ n * b :=
        mul_le_mul_of_nonneg_left (by omega) (by omega)
      nlinarith
  subst hb
  exact ⟨by linarith, rfl⟩

/-- Flat slots determine the cell: `getIndex` is injective for indices whose
x and y components are in range. -/
theorem getIndex_inj {nx ny a b d a' b' d' : ℤ}
    (ha : 0 ≤ a) (ha' : a < nx) (hb : 0 ≤ a') (hb' : a' < nx)
    (hy : 0 ≤ b) (hy' : b < ny) (hz : 0 ≤ b') (hz' : b' < ny)
    (h : getIndex nx ny a b d = getIndex nx ny a' b' d') :
    a = a' ∧ b = b' ∧ d = d' := by
  unfold getIndex at h
  obtain ⟨e1, e2⟩ := decompose_unique ha ha' hb hb' h
  obtain ⟨e3, e4⟩ := decompose_unique hy hy' hz hz' e2
  exact ⟨e1, e3, e4⟩

/-- Scan order of the triple loop: `x` strictly before, or same `x` and `y`
strictly before, or same `x`,`y` and `z` strictly before. -/
def cellLt (a b : ℕ × ℕ × ℕ) : Prop :=
  a.1 < b.1 ∨ (a.1 = b.1 ∧ (a.2.1 < b.2.1 ∨ (a.2.1 = b.2.1 ∧ a.2.2 < b.2.2)))

/-- A cell visited by the loops: every coordinate in `[1, dims[k] - 2]`. -/
def Interior (nx ny nz : ℕ) (c : ℕ × ℕ × ℕ) : Prop :=
  1 ≤ c.1 ∧ c.1 + 1 < nx ∧ 1 ≤ c.2.1 ∧ c.2.1 + 1 < ny ∧ 1 ≤ c.2.2 ∧ c.2.2 + 1 < nz

/-- The backward-shifted slot `ind - X - Y - Z` that the loop body for cell
`c` writes: the flat slot of cell `c - (1,1,1)`. -/
def cornerIdx (nx ny : ℤ) (c : ℕ × ℕ × ℕ) : ℤ :=
  getIndex nx ny ((c.1 : ℤ) - 1) ((c.2.1 : ℤ) - 1) ((c.2.2 : ℤ) - 1)

/-- The interior cells in the scan order of the triple loop. -/
def interiorCells (nx ny nz : ℕ) : List (ℕ × ℕ × ℕ) :=
  (List.range' 1 (nx - 2)).flatMap fun x =>
    (List.range' 1 (ny - 2)).flatMap fun y =>
      (List.range' 1 (nz - 2)).map fun z => (x, y, z)

/-- The corner slot written for a cell `c` is never one of the 27 slots read
for a cell `c'` that the scan visits strictly later. -/
theorem corner_ne_read (nx ny nz : ℕ) (c c' : ℕ × ℕ × ℕ) (hc : Interior nx ny nz c)
    (hc' : Interior nx ny nz c') (hlt : cellLt c c') (a b d : ℤ)
    (ha1 : (c'.1 : ℤ) - 1 ≤ a) (ha2 : a ≤ (c'.1 : ℤ) + 1)
    (hb1 : (c'.2.1 : ℤ) - 1 ≤ b) (hb2 : b ≤ (c'.2.1 : ℤ) + 1)
    (hd1 : (c'.2.2 : ℤ) - 1 ≤ d) (hd2 : d ≤ (c'.2.2 : ℤ) + 1) :
    getIndex (nx : ℤ) (ny : ℤ) a b d ≠ cornerIdx nx ny c := by
  intro heq
  obtain ⟨i1, i2, i3, i4, i5, i6⟩ := hc
  obtain ⟨j1, j2, j3, j4, j5, j6⟩ := hc'
  unfold cornerIdx at heq
  obtain ⟨e1, e2, e3⟩ :=
    getIndex_inj (by omega) (by omega) (by omega) (by omega)
      (by omega) (by omega) (by omega) (by omega) heq
  unfold cellLt at hlt
  omega

/-- Main invariant of the in-place pass, by induction over any lex-sorted
list of interior cells: after folding the loop body over the list, every
listed cell's corner slot holds the ideal pre-pass value `smoothCellSpec g`,
and every other slot is untouched — provided the starting grid still agrees
with `g` on every slot any listed cell reads. -/
theorem foldl_smooth (nx ny nz : ℕ) (g : ℤ → Voxel) :
    ∀ (cs : List (ℕ × ℕ × ℕ)) (h : ℤ → Voxel),
      (∀ c ∈ cs, Interior nx ny nz c) →
      List.Pairwise cellLt cs →
      (∀ c ∈ cs, NearAgrees nx ny g h c.1 c.2.1 c.2.2) →
      (∀ c ∈ cs,
        cs.foldl (fun gg c' => smoothCellStep (nx : ℤ) (ny : ℤ) gg c'.1 c'.2.1 c'.2.2) h
            (cornerIdx nx ny c)
          = smoothCellSpec nx ny g c.1 c.2.1 c.2.2) ∧
      (∀ q : ℤ, (∀ c ∈ cs, q ≠ cornerIdx nx ny c) →
        cs.foldl (fun gg c' => smoothCellStep (nx : ℤ) (ny : ℤ) gg c'.1 c'.2.1 c'.2.2) h q
          = h q) := by
  intro cs
  induction cs with
  | nil =>
    intro h _ _ _
    exact ⟨by intro c hc; simp at hc, by intro q _; simp⟩
  | cons c cs ih =>
    intro h hint hpw hag
    obtain ⟨hpwc, hpwt⟩ := List.pairwise_cons.mp hpw
    have hcInt : Interior nx ny nz c := hint c (List.mem_cons_self c cs)
    have hx : (0 : ℤ) < (nx : ℤ) := by obtain ⟨_, h2, _⟩ := hcInt; omega
    have hy : (0 : ℤ) < (ny : ℤ) := by obtain ⟨_, _, _, h4, _⟩ := hcInt; omega
    have hstep : smoothCellStep (nx : ℤ) (ny : ℤ) h c.1 c.2.1 c.2.2 =
        Function.update h (cornerIdx nx ny c) (smoothCellSpec nx ny g c.1 c.2.1 c.2.2) :=
      smoothCellStep_spec _ _ hx hy g h _ _ _ (hag c (List.mem_cons_self c cs))
    have hinv : ∀ c' ∈ cs, NearAgrees nx ny g
        (smoothCellStep (nx : ℤ) (ny : ℤ) h c.1 c.2.1 c.2.2) c'.1 c'.2.1 c'.2.2 := by
      intro c' hc' a b d ha1 ha2 hb1 hb2 hd1 hd2
      rw [hstep]
      rw [Function.update_noteq
        (corner_ne_read nx ny nz c c' hcInt (hint c' (List.mem_cons_of_mem c hc'))
          (hpwc c' hc') a b d ha1 ha2 hb1 hb2 hd1 hd2)]
      exact hag c' (List.mem_cons_of_mem c hc') a b d ha1 ha2 hb1 hb2 hd1 hd2
    obtain ⟨IH1, IH2⟩ := ih (smoothCellStep (nx : ℤ) (ny : ℤ) h c.1 c.2.1 c.2.2)
      (fun c' hc' => hint c' (List.mem_cons_of_mem c hc')) hpwt hinv
    constructor
    · intro c₀ hc₀
      rcases List.mem_cons.mp hc₀ with rfl | hc₀t
      · rw [List.foldl_cons]
        rw [IH2 (cornerIdx nx ny c₀)
          (fun c' hc' => corner_ne_read nx ny nz c₀ c' hcInt
            (hint c' (List.mem_cons_of_mem c₀ hc')) (hpwc c' hc')
            ((c'.1 : ℤ) - 1) ((c'.2.1 : ℤ) - 1) ((c'.2.2 : ℤ) - 1)
            (by omega) (by omega) (by omega) (by omega) (by omega) (by omega) ∘ Eq.symm)]
        rw [hstep, Function.update_same]
      · rw [List.foldl_cons]
        exact IH1 c₀ hc₀t
    · intro q hq
      rw [List.foldl_cons,
        IH2 q (fun c' hc' => hq c' (List.mem_cons_of_mem c hc')), hstep,
        Function.update_noteq (hq c (List.mem_cons_self c cs))]

/-- Pairwise relations survive `flatMap` when they hold within each block and
across blocks. -/
theorem pairwise_flatMap {α β : Type} {R : β → β → Prop} {l : List α} {f : α → List β}
    (h1 : ∀ a ∈ l, (f a).Pairwise R)
    (h2 : l.Pairwise (fun a a' => ∀ u ∈ f a, ∀ v ∈ f a', R u v)) :
    (l.flatMap f).Pairwise R := by
  induction l with
  | nil => simp
  | cons a l ih =>
    rw [List.flatMap_cons, List.pairwise_append]
    obtain ⟨h2a, h2b⟩ := List.pairwise_cons.mp h2
    refine ⟨h1 a (List.mem_cons_self a l),
      ih (fun a' ha' => h1 a' (List.mem_cons_of_mem a ha')) h2b, ?_⟩
    intro u hu v hv
    rcases List.mem_flatMap.mp hv with ⟨a', ha', hv'⟩
    exact h2a a' ha' u hu v hv'

/-- The scan list of interior cells is strictly increasing in scan order. -/
theorem interiorCells_pairwise (nx ny nz : ℕ) :
    (interiorCells nx ny nz).Pairwise cellLt := by
  unfold interiorCells
  apply pairwise_flatMap
  · intro x _
    apply pairwise_flatMap
    · intro y _
      rw [List.pairwise_map]
      exact (List.pairwise_lt_range' 1 (nz - 2)).imp fun hab =>
        Or.inr ⟨rfl, Or.inr ⟨rfl, hab⟩⟩
    · apply (List.pairwise_lt_range' 1 (ny - 2)).imp
      intro y1 y2 h12 u hu v hv
      rcases List.mem_map.mp hu with ⟨z1, _, rfl⟩
      rcases List.mem_map.mp hv with ⟨z2, _, rfl⟩
      exact Or.inr ⟨rfl, Or.inl h12⟩
  · apply (List.pairwise_lt_range' 1 (nx - 2)).imp
    intro x1 x2 h12 u hu v hv
    rcases List.mem_flatMap.mp hu with ⟨y1, _, hu'⟩
    rcases List.mem_map.mp hu' with ⟨z1, _, rfl⟩
    rcases List.mem_flatMap.mp hv with ⟨y2, _, hv'⟩
    rcases List.mem_map.mp hv' with ⟨z2, _, rfl⟩
    exact Or.inl h12

/-- Membership in the scan list is exactly interiority. -/
theorem interiorCells_mem (nx ny nz : ℕ) (c : ℕ × ℕ × ℕ) :
    c ∈ interiorCells nx ny nz ↔ Interior nx ny nz c := by
  obtain ⟨x, y, z⟩ := c
  unfold interiorCells Interior
  simp only [List.mem_flatMap, List.mem_map, List.mem_range'_1, Prod.mk.injEq]
  constructor
  · rintro ⟨x', ⟨hx1, hx2⟩, y', ⟨hy1, hy2⟩, z', ⟨hz1, hz2⟩, rfl, rfl, rfl⟩
    refine ⟨hx1, by omega, hy1, by omega, hz1, by omega⟩
  · rintro ⟨h1, h2, h3, h4, h5, h6⟩
    exact ⟨x, ⟨h1, by omega⟩, y, ⟨h3, by omega⟩, z, ⟨h5, by omega⟩, rfl, rfl, rfl⟩

/-- Folding over a `flatMap` is the nested fold. -/
theorem foldl_flatMap {α β γ : Type} (l : List α) (f : α → List β) (op : γ → β → γ)
    (init : γ) :
    (l.flatMap f).foldl op init = l.foldl (fun acc a => (f a).foldl op acc) init := by
  induction l generalizing init with
  | nil => rfl
  | cons a l ih => rw [List.flatMap_cons, List.foldl_append, List.foldl_cons, ih]

/-- The triple nested loop of the pass is the flat fold over the scan list. -/
theorem addNeighbourPriors_eq_foldl (nx ny nz : ℕ) (g : ℤ → Voxel) :
    addNeighbourPriors nx ny nz g =
      (interiorCells nx ny nz).foldl
        (fun gg c' => smoothCellStep (nx : ℤ) (ny : ℤ) gg c'.1 c'.2.1 c'.2.2) g := by
  unfold addNeighbourPriors interiorCells
  simp only [foldl_flatMap, List.foldl_map]

/-- The whole pass realises the ideal pre-pass smoothing value for every
interior cell, at that cell's backward-shifted output slot. -/
theorem addNeighbourPriors_corner (nx ny nz : ℕ) (g : ℤ → Voxel) (x y z : ℕ)
    (h1 : 1 ≤ x) (h2 : x + 1 < nx) (h3 : 1 ≤ y) (h4 : y + 1 < ny)
    (h5 : 1 ≤ z) (h6 : z + 1 < nz) :
    addNeighbourPriors nx ny nz g (cornerIdx nx ny (x, y, z))
      = smoothCellSpec (nx : ℤ) (ny : ℤ) g (x : ℤ) (y : ℤ) (z : ℤ) := by
  rw [addNeighbourPriors_eq_foldl]
  have hInt : Interior nx ny nz (x, y, z) := ⟨h1, h2, h3, h4, h5, h6⟩
  exact (foldl_smooth nx ny nz g (interiorCells nx ny nz) g
    (fun c hc => (interiorCells_mem nx ny nz c).mp hc)
    (interiorCells_pairwise nx ny nz)
    (fun c _ a b d _ _ _ _ _ _ => rfl)).1 (x, y, z)
    ((interiorCells_mem nx ny nz (x, y, z)).mpr hInt)

/-- Merging adds ray counts. -/
theorem Voxel.numRays_merge (v u : Voxel) : (v.merge u).numRays = v.numRays + u.numRays := by
  unfold numRays merge; ring

/-- Scaling multiplies the ray count. -/
theorem Voxel.numRays_scale (v : Voxel) (s : ℚ) : (v.scale s).numRays = v.numRays * s := by
  unfold numRays scale; ring

/-- A zero-scaled contribution merges to nothing. -/
theorem Voxel.merge_scale_zero (v u : Voxel) : v.merge (u.scale 0) = v := by
  unfold merge scale; simp

/-- Ray counts of well-formed accumulators are non-negative. -/
theorem Voxel.numRays_nonneg {v : Voxel} (h : v.Nonneg) : 0 ≤ v.numRays := by
  obtain ⟨h1, _, h3, _⟩ := h
  unfold numRays
  linarith

/-- The merged face shell (6 face-adjacent slots) read from grid `g`. -/
def shell1 (nx ny : ℤ) (g : ℤ → Voxel) (x y z : ℤ) : Voxel :=
  let X : ℤ := 1
  let Y : ℤ := nx
  let Z : ℤ := nx * ny
  let ind := getIndex nx ny x y z
  (((((g (ind - X)).merge (g (ind + X))).merge
    (g (ind - Y))).merge (g (ind + Y))).merge
    (g (ind - Z))).merge (g (ind + Z))

/-- The merged edge shell (12 edge-adjacent slots) read from grid `g`. -/
def shell2 (nx ny : ℤ) (g : ℤ → Voxel) (x y z : ℤ) : Voxel :=
  let X : ℤ := 1
  let Y : ℤ := nx
  let Z : ℤ := nx * ny
  let ind := getIndex nx ny x y z
  (((((((((((g (ind - X - Y)).merge (g (ind - X + Y))).merge
    (g (ind + X - Y))).merge (g (ind + X + Y))).merge
    (g (ind - X - Z))).merge (g (ind - X + Z))).merge
    (g (ind + X - Z))).merge (g (ind + X + Z))).merge
    (g (ind - Y - Z))).merge (g (ind - Y + Z))).merge
    (g (ind + Y - Z))).merge (g (ind + Y + Z))

/-- The merged corner shell (8 corner-adjacent slots) read from grid `g`. -/
def shell3 (nx ny : ℤ) (g : ℤ → Voxel) (x y z : ℤ) : Voxel :=
  let X : ℤ := 1
  let Y : ℤ := nx
  let Z : ℤ := nx * ny
  let ind := getIndex nx ny x y z
  (((((((g (ind - X - Y - Z)).merge (g (ind - X - Y + Z))).merge
    (g (ind - X + Y - Z))).merge (g (ind + X - Y - Z))).merge
    (g (ind - X + Y + Z))).merge (g (ind + X - Y + Z))).merge
    (g (ind + X + Y - Z))).merge (g (ind + X + Y + Z))

/-- The ray count produced by the three-shell borrowing cascade, as a pure
function of the centre's count and the three shell counts. -/
def borrowFormula (Rc S1 S2 S3 : ℚ) : ℚ :=
  if 10 - Rc < 0 then Rc
  else if 10 - Rc ≤ S1 then Rc + S1 * ((10 - Rc) / S1)
  else if 10 - Rc - S1 ≤ S2 then Rc + S1 + S2 * ((10 - Rc - S1) / S2)
  else if 10 - Rc - S1 - S2 ≤ S3 then Rc + S1 + S2 + S3 * ((10 - Rc - S1 - S2) / S3)
  else Rc + S1 + S2 + S3

set_option maxHeartbeats 1000000 in
/-- The ray count of the ideal per-cell smoothing output is the borrowing
cascade applied to the centre and shell counts. -/
theorem smoothCellSpec_numRays_eq (nx ny : ℤ) (g : ℤ → Voxel) (x y z : ℤ) :
    (smoothCellSpec nx ny g x y z).numRays =
      borrowFormula ((g (getIndex nx ny x y z)).numRays)
        ((shell1 nx ny g x y z).numRays) ((shell2 nx ny g x y z).numRays)
        ((shell3 nx ny g x y z).numRays) := by
  simp only [smoothCellSpec, borrowFormula, shell1, shell2, shell3, DENSITY_MIN_RAYS]
  split_ifs <;> (try rfl) <;>
    (simp only [Voxel.numRays_merge, Voxel.numRays_scale]; try ring)

/-- The three shell counts sum to the 26-neighbourhood count. -/
theorem shellRays_total (nx ny : ℤ) (g : ℤ → Voxel) (x y z : ℤ) :
    (shell1 nx ny g x y z).numRays + (shell2 nx ny g x y z).numRays +
      (shell3 nx ny g x y z).numRays = neighbourhoodRays nx ny g x y z := by
  unfold shell1 shell2 shell3 neighbourhoodRays
  simp only [Voxel.numRays_merge]
  ring

/-- Lower bound of the borrowing cascade: a neighbourhood holding enough rays
always tops the centre up to at least 10. -/
theorem borrowFormula_ge {Rc S1 S2 S3 : ℚ} (h : 10 ≤ Rc + (S1 + S2 + S3)) :
    10 ≤ borrowFormula Rc S1 S2 S3 := by
  unfold borrowFormula
  split_ifs with h1 h2 h3 h4
  · linarith
  · rcases eq_or_lt_of_le (not_lt.mp h1) with heq | hlt
    · have hRc : Rc = 10 := by linarith
      subst hRc
      norm_num
    · have hS : S1 ≠ 0 := by intro h0; rw [h0] at h2; linarith
      have hc : S1 * ((10 - Rc) / S1) = 10 - Rc := by field_simp
      linarith
  · have hS : S2 ≠ 0 := by intro h0; rw [h0] at h3; push_neg at h2; linarith
    have hc : S2 * ((10 - Rc - S1) / S2) = 10 - Rc - S1 := by field_simp
    linarith
  · have hS : S3 ≠ 0 := by intro h0; rw [h0] at h4; push_neg at h3; linarith
    have hc : S3 * ((10 - Rc - S1 - S2) / S3) = 10 - Rc - S1 - S2 := by field_simp
    linarith
  · linarith

/-- Upper bound of the borrowing cascade: the result never exceeds the larger
of 10 and everything available. -/
theorem borrowFormula_le {Rc S1 S2 S3 : ℚ} (hS1 : 0 ≤ S1) (hS2 : 0 ≤ S2) (hS3 : 0 ≤ S3) :
    borrowFormula Rc S1 S2 S3 ≤ max 10 (Rc + (S1 + S2 + S3)) := by
  unfold borrowFormula
  split_ifs with h1 h2 h3 h4
  · exact le_trans (by linarith) (le_max_right _ _)
  · rcases eq_or_lt_of_le (not_lt.mp h1) with heq | hlt
    · have hRc : Rc = 10 := by linarith
      subst hRc
      norm_num
    · have hS : S1 ≠ 0 := by intro h0; rw [h0] at h2; linarith
      have hc : S1 * ((10 - Rc) / S1) = 10 - Rc := by field_simp
      exact le_trans (by linarith) (le_max_left _ _)
  · have hS : S2 ≠ 0 := by intro h0; rw [h0] at h3; push_neg at h2; linarith
    have hc : S2 * ((10 - Rc - S1) / S2) = 10 - Rc - S1 := by field_simp
    exact le_trans (by linarith) (le_max_left _ _)
  · have hS : S3 ≠ 0 := by intro h0; rw [h0] at h4; push_neg at h3; linarith
    have hc : S3 * ((10 - Rc - S1 - S2) / S3) = 10 - Rc - S1 - S2 := by field_simp
    exact le_trans (by linarith) (le_max_left _ _)
  · exact le_trans (le_of_eq (by ring)) (le_max_right _ _)

/-- Face-shell count is non-negative on well-formed grids. -/
theorem shell1Rays_nonneg {nx ny : ℤ} {g : ℤ → Voxel} (hnn : ∀ q, (g q).Nonneg)
    (x y z : ℤ) : 0 ≤ (shell1 nx ny g x y z).numRays := by
  unfold shell1
  simp only [Voxel.numRays_merge]
  have h := fun q => Voxel.numRays_nonneg (hnn q)
  linarith [h (getIndex nx ny x y z - 1), h (getIndex nx ny x y z + 1),
    h (getIndex nx ny x y z - nx), h (getIndex nx ny x y z + nx),
    h (getIndex nx ny x y z - nx * ny), h (getIndex nx ny x y z + nx * ny)]

/-- Edge-shell count is non-negative on well-formed grids. -/
theorem shell2Rays_nonneg {nx ny : ℤ} {g : ℤ → Voxel} (hnn : ∀ q, (g q).Nonneg)
    (x y z : ℤ) : 0 ≤ (shell2 nx ny g x y z).numRays := by
  unfold shell2
  simp only [Voxel.numRays_merge]
  have h := fun q => Voxel.numRays_nonneg (hnn q)
  linarith [h (getIndex nx ny x y z - 1 - nx), h (getIndex nx ny x y z - 1 + nx),
    h (getIndex nx ny x y z + 1 - nx), h (getIndex nx ny x y z + 1 + nx),
    h (getIndex nx ny x y z - 1 - nx * ny), h (getIndex nx ny x y z - 1 + nx * ny),
    h (getIndex nx ny x y z + 1 - nx * ny), h (getIndex nx ny x y z + 1 + nx * ny),
    h (getIndex nx ny x y z - nx - nx * ny), h (getIndex nx ny x y z - nx + nx * ny),
    h (getIndex nx ny x y z + nx - nx * ny), h (getIndex nx ny x y z + nx + nx * ny)]

/-- Corner-shell count is non-negative on well-formed grids. -/
theorem shell3Rays_nonneg {nx ny : ℤ} {g : ℤ → Voxel} (hnn : ∀ q, (g q).Nonneg)
    (x y z : ℤ) : 0 ≤ (shell3 nx ny g x y z).numRays := by
  unfold shell3
  simp only [Voxel.numRays_merge]
  have h := fun q => Voxel.numRays_nonneg (hnn q)
  linarith [h (getIndex nx ny x y z - 1 - nx - nx * ny), h (getIndex nx ny x y z - 1 - nx + nx * ny),
    h (getIndex nx ny x y z - 1 + nx - nx * ny), h (getIndex nx ny x y z + 1 - nx - nx * ny),
    h (getIndex nx ny x y z - 1 + nx + nx * ny), h (getIndex nx ny x y z + 1 - nx + nx * ny),
    h (getIndex nx ny x y z + 1 + nx - nx * ny), h (getIndex nx ny x y z + 1 + nx + nx * ny)]

/-- A saturated centre is returned unchanged by the ideal per-cell output (in
the exact-rational model, where `0 / 0 = 0` makes the zero-needed fraction a
zero contribution). -/
theorem smoothCellSpec_saturated (nx ny : ℤ) (g : ℤ → Voxel) (x y z : ℤ)
    (hnn : ∀ q, (g q).Nonneg)
    (hge : DENSITY_MIN_RAYS ≤ (g (getIndex nx ny x y z)).numRays) :
    smoothCellSpec nx ny g x y z = g (getIndex nx ny x y z) := by
  have hsh : 0 ≤ (shell1 nx ny g x y z).numRays := shell1Rays_nonneg hnn x y z
  simp only [shell1] at hsh
  unfold DENSITY_MIN_RAYS at hge
  simp only [smoothCellSpec, DENSITY_MIN_RAYS]
  by_cases h1 : (10 : ℚ) - (g (getIndex nx ny x y z)).numRays < 0
  · rw [if_pos h1]
  · have h0 : (10 : ℚ) - (g (getIndex nx ny x y z)).numRays = 0 := by
      push_neg at h1
      linarith
    rw [h0, if_neg (lt_irrefl (0 : ℚ)), if_pos hsh, zero_div, Voxel.merge_scale_zero]

/-- The all-zero voxel map of a freshly constructed grid. -/
def zeroGrid : ℤ → Voxel := fun _ => Voxel.zero

/-- A uniform map holding one hit and one miss sample in every slot. -/
def twoGrid : ℤ → Voxel := fun _ => ⟨1, 1, 1, 1⟩

/-- A 3x3x3 map whose single interior cell (flat slot 13) holds exactly 10
rays while all 26 neighbours are empty. -/
def satGrid : ℤ → Voxel := fun q => if q = 13 then ⟨10, 1, 0, 0⟩ else Voxel.zero

/-- C1: for every grid state, the smoothing pass computes each interior
voxel's output (stored at its backward-shifted corner slot) exclusively from
the pre-smoothing values of the voxel and its 26 neighbours — the output
equals `smoothCellSpec` evaluated on the untouched input grid, so no voxel's
output includes statistics another voxel gained during the same pass,
despite the in-place backward-shifted buffer reuse. -/
theorem C1_smoothing_reads_only_presmoothing_neighbours (nx ny nz : ℕ)
    (g : ℤ → Voxel) (x y z : ℕ) (h1 : 1 ≤ x) (h2 : x + 1 < nx) (h3 : 1 ≤ y)
    (h4 : y + 1 < ny) (h5 : 1 ≤ z) (h6 : z + 1 < nz) :
    addNeighbourPriors nx ny nz g (cornerIdx nx ny (x, y, z))
      = smoothCellSpec (nx : ℤ) (ny : ℤ) g (x : ℤ) (y : ℤ) (z : ℤ) :=
  addNeighbourPriors_corner nx ny nz g x y z h1 h2 h3 h4 h5 h6

/-- Witness for C1 at the single interior cell of a 3x3x3 zero grid. -/
theorem C1_smoothing_reads_only_presmoothing_neighbours_witness :
    ((1 : ℕ) ≤ 1 ∧ 1 + 1 < 3) ∧
    addNeighbourPriors 3 3 3 zeroGrid (cornerIdx 3 3 (1, 1, 1))
      = smoothCellSpec ((3 : ℕ) : ℤ) ((3 : ℕ) : ℤ) zeroGrid ((1 : ℕ) : ℤ) ((1 : ℕ) : ℤ) ((1 : ℕ) : ℤ) :=
  ⟨⟨by decide, by decide⟩,
    C1_smoothing_reads_only_presmoothing_neighbours 3 3 3 zeroGrid 1 1 1
      (by decide) (by decide) (by decide) (by decide) (by decide) (by decide)⟩

/-- C4: if an interior voxel's pre-smoothing `numRays()` plus the total over
its full 26-neighbourhood reaches `DENSITY_MIN_RAYS`, its post-smoothing
`numRays()` (read at its backward-shifted output slot) is at least
`DENSITY_MIN_RAYS`; in the exact-rational model the bound is exact, with no
rounding slack needed. -/
theorem C4_smoothing_monotonic_sufficiency (nx ny nz : ℕ) (g : ℤ → Voxel)
    (x y z : ℕ) (h1 : 1 ≤ x) (h2 : x + 1 < nx) (h3 : 1 ≤ y) (h4 : y + 1 < ny)
    (h5 : 1 ≤ z) (h6 : z + 1 < nz)
    (hsum : DENSITY_MIN_RAYS ≤
      (g (getIndex (nx : ℤ) (ny : ℤ) (x : ℤ) (y : ℤ) (z : ℤ))).numRays +
        neighbourhoodRays (nx : ℤ) (ny : ℤ) g (x : ℤ) (y : ℤ) (z : ℤ)) :
    DENSITY_MIN_RAYS ≤
      (addNeighbourPriors nx ny nz g (cornerIdx nx ny (x, y, z))).numRays := by
  rw [addNeighbourPriors_corner nx ny nz g x y z h1 h2 h3 h4 h5 h6,
    smoothCellSpec_numRays_eq]
  unfold DENSITY_MIN_RAYS at hsum ⊢
  apply borrowFormula_ge
  have htot := shellRays_total (nx : ℤ) (ny : ℤ) g (x : ℤ) (y : ℤ) (z : ℤ)
  linarith

/-- Witness for C4 on a uniform 3x3x3 grid holding 2 rays per voxel. -/
theorem C4_smoothing_monotonic_sufficiency_witness :
    (DENSITY_MIN_RAYS ≤
      (twoGrid (getIndex ((3 : ℕ) : ℤ) ((3 : ℕ) : ℤ) ((1 : ℕ) : ℤ) ((1 : ℕ) : ℤ) ((1 : ℕ) : ℤ))).numRays +
        neighbourhoodRays ((3 : ℕ) : ℤ) ((3 : ℕ) : ℤ) twoGrid ((1 : ℕ) : ℤ) ((1 : ℕ) : ℤ) ((1 : ℕ) : ℤ)) ∧
    DENSITY_MIN_RAYS ≤
      (addNeighbourPriors 3 3 3 twoGrid (cornerIdx 3 3 (1, 1, 1))).numRays :=
  ⟨by norm_num [neighbourhoodRays, twoGrid, Voxel.numRays, DENSITY_MIN_RAYS],
    C4_smoothing_monotonic_sufficiency 3 3 3 twoGrid 1 1 1
      (by decide) (by decide) (by decide) (by decide) (by decide) (by decide)
      (by norm_num [neighbourhoodRays, twoGrid, Voxel.numRays, DENSITY_MIN_RAYS])⟩

/-- C5: after the smoothing pass, an interior voxel's `numRays()` (read at
its backward-shifted output slot) never exceeds
`max DENSITY_MIN_RAYS (own pre-smoothing count + full 26-neighbourhood
count)`, for every well-formed (non-negative) grid state; the fractional
branch stops at exactly `DENSITY_MIN_RAYS`. -/
theorem C5_smoothing_never_overshoots (nx ny nz : ℕ) (g : ℤ → Voxel)
    (x y z : ℕ) (h1 : 1 ≤ x) (h2 : x + 1 < nx) (h3 : 1 ≤ y) (h4 : y + 1 < ny)
    (h5 : 1 ≤ z) (h6 : z + 1 < nz) (hnn : ∀ q, (g q).Nonneg) :
    (addNeighbourPriors nx ny nz g (cornerIdx nx ny (x, y, z))).numRays ≤
      max DENSITY_MIN_RAYS
        ((g (getIndex (nx : ℤ) (ny : ℤ) (x : ℤ) (y : ℤ) (z : ℤ))).numRays +
          neighbourhoodRays (nx : ℤ) (ny : ℤ) g (x : ℤ) (y : ℤ) (z : ℤ)) := by
  rw [addNeighbourPriors_corner nx ny nz g x y z h1 h2 h3 h4 h5 h6,
    smoothCellSpec_numRays_eq]
  have htot := shellRays_total (nx : ℤ) (ny : ℤ) g (x : ℤ) (y : ℤ) (z : ℤ)
  have hs1 := @shell1Rays_nonneg (nx : ℤ) (ny : ℤ) g hnn (x : ℤ) (y : ℤ) (z : ℤ)
  have hs2 := @shell2Rays_nonneg (nx : ℤ) (ny : ℤ) g hnn (x : ℤ) (y : ℤ) (z : ℤ)
  have hs3 := @shell3Rays_nonneg (nx : ℤ) (ny : ℤ) g hnn (x : ℤ) (y : ℤ) (z : ℤ)
  have hle := @borrowFormula_le
    ((g (getIndex (nx : ℤ) (ny : ℤ) (x : ℤ) (y : ℤ) (z : ℤ))).numRays)
    _ _ _ hs1 hs2 hs3
  unfold DENSITY_MIN_RAYS
  rw [← htot]
  exact hle

/-- Witness for C5 on a uniform 3x3x3 grid holding 2 rays per voxel. -/
theorem C5_smoothing_never_overshoots_witness :
    (∀ q, (twoGrid q).Nonneg) ∧
    (addNeighbourPriors 3 3 3 twoGrid (cornerIdx 3 3 (1, 1, 1))).numRays ≤
      max DENSITY_MIN_RAYS
        ((twoGrid (getIndex ((3 : ℕ) : ℤ) ((3 : ℕ) : ℤ) ((1 : ℕ) : ℤ) ((1 : ℕ) : ℤ) ((1 : ℕ) : ℤ))).numRays +
          neighbourhoodRays ((3 : ℕ) : ℤ) ((3 : ℕ) : ℤ) twoGrid ((1 : ℕ) : ℤ) ((1 : ℕ) : ℤ) ((1 : ℕ) : ℤ)) :=
  ⟨fun q => by norm_num [twoGrid, Voxel.Nonneg],
    C5_smoothing_never_overshoots 3 3 3 twoGrid 1 1 1
      (by decide) (by decide) (by decide) (by decide) (by decide) (by decide)
      (fun q => by norm_num [twoGrid, Voxel.Nonneg])⟩

/-- C7: the failing input for the saturated-voxel frame condition.  On
`satGrid` the single interior voxel holds exactly `DENSITY_MIN_RAYS` rays
while its face shell holds zero rays, so the source reaches
`voxel += neighbours * (needed/neighbours.numRays())` with
`needed = 0` and `neighbours.numRays() = 0`: in IEEE `double`/`float`
arithmetic `0.0/0.0` is NaN and the `+=` overwrites all four accumulator
fields with NaN, changing the voxel.  In the exact-rational model
(`0 / 0 = 0`) the voxel is returned unchanged, which is the behaviour the
claim and the spec describe. -/
theorem C7_saturated_voxel_zero_shell_exhibit :
    (satGrid (getIndex 3 3 1 1 1)).numRays = DENSITY_MIN_RAYS ∧
    (shell1 3 3 satGrid 1 1 1).numRays = 0 ∧
    addNeighbourPriors 3 3 3 satGrid (cornerIdx 3 3 (1, 1, 1))
      = satGrid (getIndex 3 3 1 1 1) := by
  refine ⟨?_, ?_, ?_⟩
  · norm_num [satGrid, getIndex, Voxel.numRays, DENSITY_MIN_RAYS]
  · norm_num [shell1, satGrid, getIndex, Voxel.merge, Voxel.numRays, Voxel.zero]
  · have hc := addNeighbourPriors_corner 3 3 3 satGrid 1 1 1
      (by decide) (by decide) (by decide) (by decide) (by decide) (by decide)
    have hnn : ∀ q, (satGrid q).Nonneg := by
      intro q
      unfold satGrid Voxel.Nonneg Voxel.zero
      split_ifs <;> norm_num
    have hge : DENSITY_MIN_RAYS ≤ (satGrid (getIndex ((3:ℕ):ℤ) ((3:ℕ):ℤ) ((1:ℕ):ℤ) ((1:ℕ):ℤ) ((1:ℕ):ℤ))).numRays := by
      norm_num [satGrid, getIndex, Voxel.numRays, DENSITY_MIN_RAYS]
    have hsat := smoothCellSpec_saturated ((3:ℕ):ℤ) ((3:ℕ):ℤ) satGrid
      ((1:ℕ):ℤ) ((1:ℕ):ℤ) ((1:ℕ):ℤ) hnn hge
    simp only [Nat.cast_ofNat, Nat.cast_one] at hc hsat
    rw [hc, hsat]

/-! ## Density projection: the pixel loop of `renderCloud`, rayrenderer.cpp:213-228 -/

/-- Build the cell index visited by the projection's innermost loop:
`ind[axis] = z; ind[ax1] = x; ind[ax2] = y` (rayrenderer.cpp:220-223). -/
def projIndex (axis ax1 ax2 : Fin 3) (x y z : ℤ) : I3 :=
  (((I3.mk 0 0 0).set axis z).set ax1 x).set ax2 y

/-- The per-pixel column sum of the density projection
(rayrenderer.cpp:217-224): `total_density += grid.voxels()[grid.getIndex(ind)].density()`
over `z = 0, ..., depth-1`.  A pure fold over the finished grid; nothing is
written back. -/
def projectPixel (nx ny : ℤ) (g : ℤ → Voxel) (axis ax1 ax2 : Fin 3) (x y : ℤ)
    (depth : ℕ) : ℚ :=
  (List.range depth).foldl
    (fun td (z : ℕ) =>
      let ind := projIndex axis ax1 ax2 x y (z : ℤ)
      td + (g (getIndex nx ny ind.x ind.y ind.z)).density)
    0

/-- One step of the projection column fold. -/
theorem projectPixel_succ (nx ny : ℤ) (g : ℤ → Voxel) (axis ax1 ax2 : Fin 3)
    (x y : ℤ) (n : ℕ) :
    projectPixel nx ny g axis ax1 ax2 x y (n + 1) =
      projectPixel nx ny g axis ax1 ax2 x y n +
        (g (getIndex nx ny (projIndex axis ax1 ax2 x y (n : ℤ)).x
          (projIndex axis ax1 ax2 x y (n : ℤ)).y
          (projIndex axis ax1 ax2 x y (n : ℤ)).z)).density := by
  unfold projectPixel
  rw [List.range_succ, List.foldl_append, List.foldl_cons, List.foldl_nil]

/-- The projection fold is the column sum of `density()`. -/
theorem projectPixel_eq_sum (nx ny : ℤ) (g : ℤ → Voxel) (axis ax1 ax2 : Fin 3)
    (x y : ℤ) (depth : ℕ) :
    projectPixel nx ny g axis ax1 ax2 x y depth =
      ∑ k ∈ Finset.range depth,
        (g (getIndex nx ny (projIndex axis ax1 ax2 x y (k : ℤ)).x
          (projIndex axis ax1 ax2 x y (k : ℤ)).y
          (projIndex axis ax1 ax2 x y (k : ℤ)).z)).density := by
  induction depth with
  | zero => rfl
  | succ n ih => rw [projectPixel_succ, Finset.sum_range_succ, ih]

/-- C9: for every finished grid, the projection assigns each pixel the sum
of `density()` over every voxel slot in that pixel's column along the view
axis (the computation is a pure fold over the finished grid, mutating
nothing) — unconditionally; and in particular, whenever the column's `depth`
voxels have uniform density `d`, the pixel value is `depth * d`. -/
theorem C9_projection_column_sum (nx ny : ℤ) (g : ℤ → Voxel) (axis ax1 ax2 : Fin 3)
    (x y : ℤ) (depth : ℕ) (d : ℚ) :
    (projectPixel nx ny g axis ax1 ax2 x y depth =
      ∑ k ∈ Finset.range depth,
        (g (getIndex nx ny (projIndex axis ax1 ax2 x y (k : ℤ)).x
          (projIndex axis ax1 ax2 x y (k : ℤ)).y
          (projIndex axis ax1 ax2 x y (k : ℤ)).z)).density) ∧
    ((∀ k : ℕ, k < depth →
        (g (getIndex nx ny (projIndex axis ax1 ax2 x y (k : ℤ)).x
          (projIndex axis ax1 ax2 x y (k : ℤ)).y
          (projIndex axis ax1 ax2 x y (k : ℤ)).z)).density = d) →
      projectPixel nx ny g axis ax1 ax2 x y depth = (depth : ℚ) * d) := by
  refine ⟨projectPixel_eq_sum nx ny g axis ax1 ax2 x y depth, fun hcol => ?_⟩
  rw [projectPixel_eq_sum nx ny g axis ax1 ax2 x y depth,
    Finset.sum_congr rfl (fun k hk => hcol k (Finset.mem_range.mp hk)),
    Finset.sum_const, Finset.card_range, nsmul_eq_mul]

/-- A uniform map whose every slot has density 3. -/
def uniGrid : ℤ → Voxel := fun _ => ⟨3, 1, 0, 0⟩

/-- Witness for C9: a column of 2 voxels of uniform density 3 projects to 6. -/
theorem C9_projection_column_sum_witness :
    (∀ k : ℕ, k < 2 →
      (uniGrid (getIndex 4 4 (projIndex 2 0 1 0 0 (k : ℤ)).x
        (projIndex 2 0 1 0 0 (k : ℤ)).y
        (projIndex 2 0 1 0 0 (k : ℤ)).z)).density = 3) ∧
    projectPixel 4 4 uniGrid 2 0 1 0 0 2 = ((2 : ℕ) : ℚ) * 3 :=
  ⟨fun k _ => by norm_num [uniGrid, Voxel.density],
    (C9_projection_column_sum 4 4 uniGrid 2 0 1 0 0 2 3).2
      (fun k _ => by norm_num [uniGrid, Voxel.density])⟩

/-! ## Miss rays never contribute hits (C8) -/

/-- Every write recorded by the walk of a miss ray (`alpha = 0`) is a miss
write, at every iteration: the hit branch is guarded by
`colours[i].alpha > 0 && depth > maxDist`. -/
theorem missExtend {evs : List Ev} {inds' : I3} {d' : ℚ}
    (hevs : ∀ ev ∈ evs, ev.kind = EvKind.miss) :
    ∀ ev ∈ evs ++ [(⟨EvKind.miss, inds', d'⟩ : Ev)], ev.kind = EvKind.miss := by
  intro ev hev
  rcases List.mem_append.mp hev with hl | hr
  · exact hevs ev hl
  · rcases List.mem_singleton.mp hr with rfl
    rfl

theorem travLoop_miss (w len maxD : ℚ) (dirv src : V3) (dims : I3) :
    ∀ (fuel : ℕ) (p : V3) (inds : I3) (depth : ℚ) (evs : List Ev),
      (∀ ev ∈ evs, ev.kind = EvKind.miss) →
      ∀ ev ∈ (travLoop w len maxD dirv src dims false fuel p inds depth evs).getD [],
        ev.kind = EvKind.miss := by
  intro fuel
  induction fuel with
  | zero =>
    intro p inds depth evs hevs
    simp [travLoop]
  | succ n ih =>
    intro p inds depth evs hevs
    simp only [travLoop, Bool.false_eq_true, false_and, if_false]
    split_ifs <;>
      first
        | simpa using hevs
        | exact ih _ _ _ _ (missExtend hevs)
        | simpa using missExtend hevs

/-- Every write of a whole processed miss ray is a miss write. -/
theorem calcDensRay_miss (fuel : ℕ) (bmin bmax : V3) (w : ℚ) (dims : I3)
    (s e : V3) (len : ℚ) :
    ∀ ev ∈ (calcDensRay fuel bmin bmax w dims s e len false).getD [],
      ev.kind = EvKind.miss := by
  unfold calcDensRay traverse
  exact travLoop_miss _ _ _ _ _ _ fuel _ _ _ _ (by intro ev hev; simp at hev)

/-- A miss write never changes the hit statistics of any slot. -/
theorem applyEv_miss (nx ny : ℤ) (g : ℤ → Voxel) (ev : Ev)
    (hk : ev.kind = EvKind.miss) (q : ℤ) :
    ((applyEv nx ny g ev) q).hitCount = (g q).hitCount ∧
    ((applyEv nx ny g ev) q).hitDepthSum = (g q).hitDepthSum := by
  simp only [applyEv, hk]
  by_cases hq : q = getIndex nx ny ev.inds.x ev.inds.y ev.inds.z
  · subst hq
    rw [Function.update_same]
    exact ⟨rfl, rfl⟩
  · rw [Function.update_noteq hq]
    exact ⟨rfl, rfl⟩

/-- A list of miss writes never changes the hit statistics of any slot. -/
theorem applyEvs_miss (nx ny : ℤ) :
    ∀ (evs : List Ev) (g : ℤ → Voxel), (∀ ev ∈ evs, ev.kind = EvKind.miss) →
      ∀ q, ((applyEvs nx ny g evs) q).hitCount = (g q).hitCount ∧
        ((applyEvs nx ny g evs) q).hitDepthSum = (g q).hitDepthSum := by
  intro evs
  induction evs with
  | nil => exact fun g _ q => ⟨rfl, rfl⟩
  | cons ev evs ih =>
    intro g hk q
    simp only [applyEvs, List.foldl_cons]
    obtain ⟨h1, h2⟩ := ih (applyEv nx ny g ev)
      (fun e he => hk e (List.mem_cons_of_mem ev he)) q
    obtain ⟨h3, h4⟩ := applyEv_miss nx ny g ev (hk ev (List.mem_cons_self ev evs)) q
    exact ⟨by rw [applyEvs] at h1; rw [h1, h3], by rw [applyEvs] at h2; rw [h2, h4]⟩

/-- Processing miss-only rays keeps every slot's hit statistics at the
starting grid's values. -/
theorem processCloud_miss (fuel : ℕ) (bmin bmax : V3) (w : ℚ) (dims : I3)
    (nx ny : ℤ) :
    ∀ (rays : List RayIn) (g : ℤ → Voxel), (∀ r ∈ rays, r.isHit = false) →
      ∀ q, ((processCloud fuel bmin bmax w dims nx ny g rays) q).hitCount = (g q).hitCount ∧
        ((processCloud fuel bmin bmax w dims nx ny g rays) q).hitDepthSum = (g q).hitDepthSum := by
  intro rays
  induction rays with
  | nil => exact fun g _ q => ⟨rfl, rfl⟩
  | cons r rays ih =>
    intro g hm q
    simp only [processCloud, List.foldl_cons]
    have hr : r.isHit = false := hm r (List.mem_cons_self r rays)
    obtain ⟨h1, h2⟩ := ih
      (applyEvs nx ny g ((calcDensRay fuel bmin bmax w dims r.s r.e r.len r.isHit).getD []))
      (fun r' hr' => hm r' (List.mem_cons_of_mem r hr')) q
    obtain ⟨h3, h4⟩ := applyEvs_miss nx ny
      ((calcDensRay fuel bmin bmax w dims r.s r.e r.len r.isHit).getD []) g
      (by rw [hr]; exact calcDensRay_miss fuel bmin bmax w dims r.s r.e r.len) q
    exact ⟨by rw [processCloud] at h1; rw [h1, h3], by rw [processCloud] at h2; rw [h2, h4]⟩

/-- C8: a ray whose hit flag is false never makes a hit contribution at any
iteration of its traversal — every recorded write is a miss write — and
processing any set of miss-only rays from the empty grid leaves every voxel's
hit count and hit depth sum at zero. -/
theorem C8_miss_rays_make_no_hit_contribution (fuel : ℕ) (bmin bmax : V3)
    (w : ℚ) (dims : I3) (nx ny : ℤ) (rays : List RayIn)
    (hmiss : ∀ r ∈ rays, r.isHit = false) :
    (∀ r ∈ rays, ∀ ev ∈ (calcDensRay fuel bmin bmax w dims r.s r.e r.len r.isHit).getD [],
      ev.kind = EvKind.miss) ∧
    (∀ q, ((processCloud fuel bmin bmax w dims nx ny zeroGrid rays) q).hitCount = 0 ∧
      ((processCloud fuel bmin bmax w dims nx ny zeroGrid rays) q).hitDepthSum = 0) := by
  constructor
  · intro r hr
    rw [hmiss r hr]
    exact calcDensRay_miss fuel bmin bmax w dims r.s r.e r.len
  · intro q
    obtain ⟨h1, h2⟩ := processCloud_miss fuel bmin bmax w dims nx ny rays zeroGrid hmiss q
    exact ⟨h1, h2⟩

/-- The single miss ray of the traversal scenario. -/
def missRay1 : RayIn := ⟨⟨1/2, 1/2, 1/2⟩, ⟨7/2, 1/2, 1/2⟩, 3, false⟩

/-- Witness for C8: one miss ray through the 4x4x4 grid leaves slot 1 with
zero hit statistics. -/
theorem C8_miss_rays_make_no_hit_contribution_witness :
    (∀ r ∈ [missRay1], r.isHit = false) ∧
    ((processCloud 6 ⟨0, 0, 0⟩ ⟨4, 4, 4⟩ 1 ⟨4, 4, 4⟩ 4 4 zeroGrid [missRay1]) 1).hitCount = 0 :=
  ⟨fun r hr => by rcases List.mem_singleton.mp hr with rfl; rfl,
    ((C8_miss_rays_make_no_hit_contribution 6 ⟨0, 0, 0⟩ ⟨4, 4, 4⟩ 1 ⟨4, 4, 4⟩ 4 4 [missRay1]
      (fun r hr => by rcases List.mem_singleton.mp hr with rfl; rfl)).2 1).1⟩

/-! ## Bounds discipline of the traversal (C3) and termination (C10) -/

theorem I3.get_set (v : I3) (k j : Fin 3) (a : ℤ) :
    (v.set k a).get j = if j = k then a else v.get j := by
  fin_cases k <;> fin_cases j <;> simp [I3.set, I3.get]

/-- A recorded write stays inside the grid: all three cell indices in
`[0, dims[k])`. -/
def EvInRange (dims : I3) (ev : Ev) : Prop :=
  (0 ≤ ev.inds.x ∧ ev.inds.x < dims.x) ∧ (0 ≤ ev.inds.y ∧ ev.inds.y < dims.y) ∧
  (0 ≤ ev.inds.z ∧ ev.inds.z < dims.z)

theorem rangeExtend {dims : I3} {evs : List Ev}
    (hevs : ∀ ev ∈ evs, EvInRange dims ev) {ev0 : Ev} (h0 : EvInRange dims ev0) :
    ∀ ev ∈ evs ++ [ev0], EvInRange dims ev := by
  intro ev hev
  rcases List.mem_append.mp hev with hl | hr
  · exact hevs ev hl
  · rcases List.mem_singleton.mp hr with rfl
    exact h0

/-- Loop invariant: if the current cell index is in range on all three axes,
every write the loop makes (it checks only the stepped axis before writing)
is in range on all three axes. -/
theorem travLoop_inRange (w len maxD : ℚ) (dirv src : V3) (dims : I3) (isHit : Bool) :
    ∀ (fuel : ℕ) (p : V3) (inds : I3) (depth : ℚ) (evs : List Ev),
      (∀ k : Fin 3, 0 ≤ inds.get k ∧ inds.get k < dims.get k) →
      (∀ ev ∈ evs, EvInRange dims ev) →
      ∀ ev ∈ (travLoop w len maxD dirv src dims isHit fuel p inds depth evs).getD [],
        EvInRange dims ev := by
  intro fuel
  induction fuel with
  | zero =>
    intro p inds depth evs _ _
    simp [travLoop]
  | succ n ih =>
    intro p inds depth evs hin hevs
    simp only [travLoop]
    set st := pickStep dirv p len with hst
    set stp : ℤ := if 0 < dirv.get st.2 then 1 else -1 with hstp
    set inds' := inds.set st.2 (inds.get st.2 + stp) with hinds2
    by_cases hbr : inds'.get st.2 < 0 ∨ dims.get st.2 ≤ inds'.get st.2
    · rw [if_pos hbr]
      simpa using hevs
    · rw [if_neg hbr]
      push_neg at hbr
      have hin' : ∀ k : Fin 3, 0 ≤ inds'.get k ∧ inds'.get k < dims.get k := by
        intro k
        by_cases hk : k = st.2
        · subst hk
          exact ⟨hbr.1, hbr.2⟩
        · rw [hinds2, I3.get_set, if_neg hk]
          exact hin k
      have hev0 : EvInRange dims
          (if isHit ∧ maxD < depth + st.1 + eps then
            (⟨EvKind.hit, inds', (st.1 + maxD - (depth + st.1 + eps)) * w⟩ : Ev)
          else ⟨EvKind.miss, inds', st.1 * w⟩) := by
        split_ifs <;> exact ⟨hin' 0, hin' 1, hin' 2⟩
      by_cases hlp : depth + st.1 + eps ≤ maxD
      · rw [if_pos hlp]
        exact ih _ _ _ _ hin' (rangeExtend hevs hev0)
      · rw [if_neg hlp]
        simpa using rangeExtend hevs hev0

/-- The minimal parametric step picked by the axis loop is non-negative when
the ray length is. -/
theorem pickStep_nonneg (dirv p : V3) (len : ℚ) (hlen : 0 ≤ len) :
    0 ≤ (pickStep dirv p len).1 := by
  unfold pickStep
  have key : ∀ (l : List (Fin 3)) (acc : ℚ × Fin 3), 0 ≤ acc.1 →
      0 ≤ (l.foldl
        (fun acc k =>
          if dirv.get k ≠ 0 then
            let l := (if 0 < dirv.get k then (⌈p.get k⌉ : ℚ) - p.get k
                      else p.get k - (⌊p.get k⌋ : ℚ)) * len / |dirv.get k|
            if l < acc.1 then (l, k) else acc
          else acc)
        acc).1 := by
    intro l
    induction l with
    | nil => exact fun acc h => h
    | cons k l ih =>
      intro acc hacc
      apply ih
      have hc : 0 ≤ ((⌈p.get k⌉ : ℚ) - p.get k) * len / |dirv.get k| :=
        div_nonneg (mul_nonneg (by linarith [Int.le_ceil (p.get k)]) hlen) (abs_nonneg _)
      have hf : 0 ≤ (p.get k - (⌊p.get k⌋ : ℚ)) * len / |dirv.get k| :=
        div_nonneg (mul_nonneg (by linarith [Int.floor_le (p.get k)]) hlen) (abs_nonneg _)
      dsimp only
      split_ifs <;> first | exact hacc | exact hc | exact hf
  exact key (List.finRange 3) (bigL, 0) (by norm_num [bigL])

/-- Fuel bound: once the remaining depth budget is below `fuel * eps`, the
loop completes (exits by boundary break or by passing `maxDist`) within
`fuel + 1` iterations. -/
theorem travLoop_terminates (w len maxD : ℚ) (dirv src : V3) (dims : I3)
    (isHit : Bool) (hlen : 0 ≤ len) :
    ∀ (fuel : ℕ) (p : V3) (inds : I3) (depth : ℚ) (evs : List Ev),
      maxD < depth + (fuel : ℚ) * eps → 1 ≤ fuel →
      (travLoop w len maxD dirv src dims isHit fuel p inds depth evs).isSome := by
  intro fuel
  induction fuel with
  | zero =>
    intro p inds depth evs _ hpos
    omega
  | succ n ih =>
    intro p inds depth evs hbound _
    simp only [travLoop]
    split_ifs <;>
      first
        | rfl
        | (rcases Nat.eq_zero_or_pos n with rfl | hn
           · exfalso
             have hmin := pickStep_nonneg dirv p len hlen
             have heps : (0 : ℚ) < eps := by norm_num [eps]
             push_cast at hbound
             linarith
           · refine ih _ _ _ _ ?_ hn
             have hmin := pickStep_nonneg dirv p len hlen
             have heps : (0 : ℚ) < eps := by norm_num [eps]
             push_cast at hbound ⊢
             linarith)

/-- C10: the traversal of any ray with rational data terminates: with
`maxDist = len / w`, any fuel strictly larger than `maxDist / eps` completes
the do-while loop (each iteration adds at least the fixed `eps = 1e-9` to
`depth`, and the loop exits once `depth` passes `maxDist` or a stepped index
leaves the grid), so the number of iterations is bounded for every input. -/
theorem C10_traversal_terminates (fuel : ℕ) (bmin : V3) (w : ℚ) (dims : I3)
    (s e : V3) (len : ℚ) (isHit : Bool) (hw : 0 < w) (hlen : 0 ≤ len)
    (hone : 1 ≤ fuel) (hfuel : len / w < (fuel : ℚ) * eps) :
    (traverse fuel bmin w dims s e len isHit).isSome := by
  unfold traverse
  exact travLoop_terminates w len (len / w) _ _ dims isHit hlen fuel _ _ 0 []
    (by linarith) hone

/-- Witness for C10: the scenario ray completes with fuel 4e9. -/
theorem C10_traversal_terminates_witness :
    ((0 : ℚ) < 1 ∧ (0 : ℚ) ≤ 3 ∧ 1 ≤ 4000000000 ∧
      (3 : ℚ) / 1 < ((4000000000 : ℕ) : ℚ) * eps) ∧
    (traverse 4000000000 ⟨0, 0, 0⟩ 1 ⟨4, 4, 4⟩ ⟨1/2, 1/2, 1/2⟩
      ⟨7/2, 1/2, 1/2⟩ 3 true).isSome :=
  ⟨⟨by norm_num, by norm_num, by norm_num, by norm_num [eps]⟩,
    C10_traversal_terminates 4000000000 ⟨0, 0, 0⟩ 1 ⟨4, 4, 4⟩ ⟨1/2, 1/2, 1/2⟩
      ⟨7/2, 1/2, 1/2⟩ 3 true (by norm_num) (by norm_num) (by norm_num)
      (by norm_num [eps])⟩

/-! ## Concrete scenario evaluations (C2, C3, C6) -/

theorem finRange3 : List.finRange 3 = [0, 1, 2] := by decide

/-- Ceiling via floor, to let concrete rational ceilings evaluate. -/
theorem ceilQ (q : ℚ) : (⌈q⌉ : ℤ) = -⌊-q⌋ := by
  rw [Int.floor_neg, neg_neg]

/-- The writes recorded for the round-trip scenario ray: grid width 1, dims
(4,4,4), origin (0,0,0), hit ray from (0.5,0.5,0.5) to (3.5,0.5,0.5).
Because `inds` is incremented before attribution, each step's depth is
credited to the next voxel along the ray, the start voxel (0,0,0) receives
nothing, and the final hit segment would be credited to (4,0,0), which is
out of bounds, so the loop breaks and no hit is recorded at all. -/
theorem c2_events_eq :
    calcDensRay 6 ⟨0, 0, 0⟩ ⟨4, 4, 4⟩ 1 ⟨4, 4, 4⟩ ⟨1/2, 1/2, 1/2⟩
        ⟨7/2, 1/2, 1/2⟩ 3 true =
      some [⟨EvKind.miss, ⟨1, 0, 0⟩, 1/2⟩,
            ⟨EvKind.miss, ⟨2, 0, 0⟩, 1 - 1/10^9⟩,
            ⟨EvKind.miss, ⟨3, 0, 0⟩, 1 - 1/10^9⟩] := by
  norm_num [calcDensRay, clipRay, traverse, travLoop, pickStep, finRange3,
    ceilQ, V3.get, I3.get, I3.set, truncQ, eps, bigL]

/-- Writes at slots other than `q` leave `q` untouched. -/
theorem applyEvs_untouched (nx ny : ℤ) :
    ∀ (evs : List Ev) (g : ℤ → Voxel) (q : ℤ),
      (∀ ev ∈ evs, getIndex nx ny ev.inds.x ev.inds.y ev.inds.z ≠ q) →
      applyEvs nx ny g evs q = g q := by
  intro evs
  induction evs with
  | nil => exact fun g q _ => rfl
  | cons ev evs ih =>
    intro g q hq
    have step := ih (applyEv nx ny g ev) q (fun e he => hq e (List.mem_cons_of_mem ev he))
    simp only [applyEvs, List.foldl_cons] at step ⊢
    rw [step]
    simp only [applyEv]
    rw [Function.update_noteq (Ne.symm (hq ev (List.mem_cons_self ev evs)))]

/-- The voxel array after the round-trip scenario ray, starting from the
all-zero grid. -/
def c2Grid : ℤ → Voxel :=
  applyEvs 4 4 zeroGrid
    ((calcDensRay 6 ⟨0, 0, 0⟩ ⟨4, 4, 4⟩ 1 ⟨4, 4, 4⟩ ⟨1/2, 1/2, 1/2⟩
      ⟨7/2, 1/2, 1/2⟩ 3 true).getD [])

/-- C2 counterexample: the claimed outcome of the round-trip scenario — one
miss of depth 1 in each of (0,0,0), (1,0,0), (2,0,0) and one hit of depth
0.5 in (3,0,0) — is false on the code: voxel (0,0,0) receives nothing (and
(3,0,0) receives a miss, not a hit). -/
theorem C2_roundtrip_scenario_counterexample :
    ¬(c2Grid (getIndex 4 4 0 0 0) = ⟨0, 0, 1, 1⟩ ∧
      c2Grid (getIndex 4 4 1 0 0) = ⟨0, 0, 1, 1⟩ ∧
      c2Grid (getIndex 4 4 2 0 0) = ⟨0, 0, 1, 1⟩ ∧
      c2Grid (getIndex 4 4 3 0 0) = ⟨1, 1/2, 0, 0⟩) := by
  intro h
  have h0 := h.1
  rw [show c2Grid (getIndex 4 4 0 0 0) = Voxel.zero from by
    unfold c2Grid
    rw [c2_events_eq]
    norm_num [applyEvs, applyEv, getIndex, zeroGrid, Function.update]] at h0
  exact absurd (congrArg Voxel.missCount h0) (by norm_num [Voxel.zero])

/-- C2 amended: what the scenario actually produces.  Attribution is shifted
one voxel forward along the ray: (1,0,0) gets one miss of depth 1/2, (2,0,0)
and (3,0,0) each get one miss of depth `1 - 1e-9` (the `1e-9` nudges), the
start voxel (0,0,0) gets nothing, no hit is recorded anywhere (the hit
segment would belong to the out-of-range slot (4,0,0)), and every slot other
than 1, 2, 3 is unchanged. -/
theorem C2_roundtrip_scenario_amended :
    c2Grid (getIndex 4 4 0 0 0) = Voxel.zero ∧
    c2Grid (getIndex 4 4 1 0 0) = ⟨0, 0, 1, 1/2⟩ ∧
    c2Grid (getIndex 4 4 2 0 0) = ⟨0, 0, 1, 1 - 1/10^9⟩ ∧
    c2Grid (getIndex 4 4 3 0 0) = ⟨0, 0, 1, 1 - 1/10^9⟩ ∧
    ∀ q : ℤ, q ≠ 1 → q ≠ 2 → q ≠ 3 → c2Grid q = zeroGrid q := by
  refine ⟨?_, ?_, ?_, ?_, ?_⟩
  · unfold c2Grid
    rw [c2_events_eq]
    norm_num [applyEvs, applyEv, getIndex, zeroGrid, Function.update]
  · unfold c2Grid
    rw [c2_events_eq]
    norm_num [applyEvs, applyEv, getIndex, zeroGrid, Function.update,
      Voxel.addMissRay, Voxel.zero]
  · unfold c2Grid
    rw [c2_events_eq]
    norm_num [applyEvs, applyEv, getIndex, zeroGrid, Function.update,
      Voxel.addMissRay, Voxel.zero]
  · unfold c2Grid
    rw [c2_events_eq]
    norm_num [applyEvs, applyEv, getIndex, zeroGrid, Function.update,
      Voxel.addMissRay, Voxel.zero]
  · intro q hq1 hq2 hq3
    unfold c2Grid
    rw [c2_events_eq]
    refine applyEvs_untouched 4 4 _ zeroGrid q ?_
    intro ev hev
    simp only [Option.getD_some, List.mem_cons, List.not_mem_nil, or_false] at hev
    rcases hev with rfl | rfl | rfl <;>
      simpa [getIndex] using by omega

/-- Witness for the amended C2 statement at the untouched slot 17. -/
theorem C2_roundtrip_scenario_amended_witness :
    ((17 : ℤ) ≠ 1 ∧ (17 : ℤ) ≠ 2 ∧ (17 : ℤ) ≠ 3) ∧ c2Grid 17 = zeroGrid 17 :=
  ⟨⟨by decide, by decide, by decide⟩,
    C2_roundtrip_scenario_amended.2.2.2.2 17 (by decide) (by decide) (by decide)⟩

/-- The writes recorded for a degenerate (zero-length) hit ray at
(1.5,1.5,1.5) in the 4x4x4 grid: far from being skipped, the single do-while
iteration leaves `minL` at the `1e10` sentinel (every axis has `dir[k] = 0`),
decrements the x index (`dir[0] > 0` is false), stays in bounds, and calls
`addHitRay` on voxel (0,1,1) — with depth `-1e-9` in exact arithmetic. -/
theorem c6_events_eq :
    calcDensRay 2 ⟨0, 0, 0⟩ ⟨4, 4, 4⟩ 1 ⟨4, 4, 4⟩ ⟨3/2, 3/2, 3/2⟩
        ⟨3/2, 3/2, 3/2⟩ 0 true =
      some [⟨EvKind.hit, ⟨0, 1, 1⟩, -(1/10^9) * 1⟩] := by
  norm_num [calcDensRay, clipRay, traverse, travLoop, pickStep, finRange3,
    ceilQ, V3.get, I3.get, I3.set, truncQ, eps, bigL]

/-- The voxel array after the degenerate hit ray, from the all-zero grid. -/
def c6Grid : ℤ → Voxel :=
  applyEvs 4 4 zeroGrid
    ((calcDensRay 2 ⟨0, 0, 0⟩ ⟨4, 4, 4⟩ 1 ⟨4, 4, 4⟩ ⟨3/2, 3/2, 3/2⟩
      ⟨3/2, 3/2, 3/2⟩ 0 true).getD [])

/-- C6: a degenerate ray (start == end, inside the grid) is not skipped and
does not leave the accumulators unchanged: voxel (0,1,1) (flat slot 20)
gains one hit sample.  (In IEEE doubles the same iteration runs with
`minL = 1e10` kept by the NaN-poisoned comparisons; a degenerate miss ray
even adds a miss depth of `1e10 * voxel_width`.) -/
theorem C6_degenerate_ray_not_skipped :
    (c6Grid (getIndex 4 4 0 1 1)).hitCount = 1 ∧
    c6Grid (getIndex 4 4 0 1 1) ≠ zeroGrid (getIndex 4 4 0 1 1) := by
  have hval : c6Grid (getIndex 4 4 0 1 1) = ⟨1, -(1/10^9), 0, 0⟩ := by
    unfold c6Grid
    rw [c6_events_eq]
    norm_num [applyEvs, applyEv, getIndex, zeroGrid, Function.update,
      Voxel.addHitRay, Voxel.zero]
  rw [hval]
  constructor
  · rfl
  · intro h
    exact absurd (congrArg Voxel.hitCount h) (by norm_num [zeroGrid, Voxel.zero])

/-- The writes recorded for a miss ray lying exactly on the grid's upper z
boundary plane (z = 4 in a 4x4x4 grid of width 1): the clip leaves the ray
unchanged, the truncated start index is (0,0,4) — out of range on an axis
the traversal never steps or checks — and every write carries z index 4. -/
theorem c3_events_eq :
    calcDensRay 6 ⟨0, 0, 0⟩ ⟨4, 4, 4⟩ 1 ⟨4, 4, 4⟩ ⟨1/2, 1/2, 4⟩
        ⟨7/2, 1/2, 4⟩ 3 false =
      some [⟨EvKind.miss, ⟨1, 0, 4⟩, 1/2⟩,
            ⟨EvKind.miss, ⟨2, 0, 4⟩, 1 - 1/10^9⟩,
            ⟨EvKind.miss, ⟨3, 0, 4⟩, 1 - 1/10^9⟩] := by
  norm_num [calcDensRay, clipRay, traverse, travLoop, pickStep, finRange3,
    ceilQ, V3.get, I3.get, I3.set, truncQ, eps, bigL]

/-- C3 counterexample: the boundary-plane ray produces a write whose z cell
index equals `dims[2] = 4`, outside `[0, dims[2])` — the flat slot written is
`1 + 4*(0 + 4*4) = 65`, beyond the 64-slot array. -/
theorem C3_out_of_range_write_counterexample :
    ((calcDensRay 6 ⟨0, 0, 0⟩ ⟨4, 4, 4⟩ 1 ⟨4, 4, 4⟩ ⟨1/2, 1/2, 4⟩
        ⟨7/2, 1/2, 4⟩ 3 false).getD []).head? =
      some ⟨EvKind.miss, ⟨1, 0, 4⟩, 1/2⟩ ∧
    ¬ EvInRange ⟨4, 4, 4⟩ ⟨EvKind.miss, ⟨1, 0, 4⟩, 1/2⟩ ∧
    getIndex 4 4 1 0 4 = 65 := by
  refine ⟨by rw [c3_events_eq]; rfl, fun h => absurd h.2.2.2 (by norm_num), by norm_num [getIndex]⟩

/-- C3 amended: the stepped axis is bounds-checked before every write, so
whenever the initial truncated cell index (of the clipped ray) lies within
`[0, dims[k])` on all three axes, every slot the traversal writes has all
three indices in range; but the two unstepped axes of the initial index are
never checked, so a clipped start lying on the grid's upper boundary plane
yields out-of-range writes (see the counterexample). -/
theorem C3_traversal_in_range_amended (fuel : ℕ) (bmin : V3) (w : ℚ)
    (dims : I3) (s e : V3) (len : ℚ) (isHit : Bool)
    (h0 : ∀ k : Fin 3,
      0 ≤ (I3.mk (truncQ ((s.x - bmin.x) / w)) (truncQ ((s.y - bmin.y) / w))
        (truncQ ((s.z - bmin.z) / w))).get k ∧
      (I3.mk (truncQ ((s.x - bmin.x) / w)) (truncQ ((s.y - bmin.y) / w))
        (truncQ ((s.z - bmin.z) / w))).get k < dims.get k) :
    ∀ ev ∈ (traverse fuel bmin w dims s e len isHit).getD [], EvInRange dims ev := by
  unfold traverse
  exact travLoop_inRange w len (len / w) _ _ dims isHit fuel _ _ 0 [] h0
    (by intro ev hev; simp at hev)

/-- Witness for the amended C3 statement: the scenario ray starts in range
and its first write (slot of cell (1,0,0)) is in range. -/
theorem C3_traversal_in_range_amended_witness :
    (∀ k : Fin 3,
      0 ≤ (I3.mk (truncQ (((1:ℚ)/2 - 0) / 1)) (truncQ (((1:ℚ)/2 - 0) / 1))
        (truncQ (((1:ℚ)/2 - 0) / 1))).get k ∧
      (I3.mk (truncQ (((1:ℚ)/2 - 0) / 1)) (truncQ (((1:ℚ)/2 - 0) / 1))
        (truncQ (((1:ℚ)/2 - 0) / 1))).get k < (I3.mk 4 4 4).get k) ∧
    EvInRange ⟨4, 4, 4⟩ ⟨EvKind.miss, ⟨1, 0, 0⟩, 1/2⟩ := by
  have harg : ∀ k : Fin 3,
      0 ≤ (I3.mk (truncQ (((1:ℚ)/2 - 0) / 1)) (truncQ (((1:ℚ)/2 - 0) / 1))
        (truncQ (((1:ℚ)/2 - 0) / 1))).get k ∧
      (I3.mk (truncQ (((1:ℚ)/2 - 0) / 1)) (truncQ (((1:ℚ)/2 - 0) / 1))
        (truncQ (((1:ℚ)/2 - 0) / 1))).get k < (I3.mk 4 4 4).get k := by
    intro k
    fin_cases k <;> constructor <;> norm_num [truncQ, I3.get]
  refine ⟨harg, ?_⟩
  refine C3_traversal_in_range_amended 6 ⟨0, 0, 0⟩ 1 ⟨4, 4, 4⟩
    ⟨1/2, 1/2, 1/2⟩ ⟨7/2, 1/2, 1/2⟩ 3 true harg
    ⟨EvKind.miss, ⟨1, 0, 0⟩, 1/2⟩ ?_
  have := c2_events_eq
  unfold calcDensRay at this
  rw [show clipRay ⟨0, 0, 0⟩ ⟨4, 4, 4⟩ ⟨1/2, 1/2, 1/2⟩ ⟨7/2, 1/2, 1/2⟩ =
    (⟨1/2, 1/2, 1/2⟩, ⟨7/2, 1/2, 1/2⟩) from by
      norm_num [clipRay, finRange3, V3.get]] at this
  rw [this]
  simp

end RayDensity
